import Mathlib

/-!
Verification of the Rabin content-defined chunker (package chunker, file
rabin.go) against its natural-language specification.

The Go source is shallowly embedded below.  Machine integers are modelled
as Nat; the only place where uint64 overflow could matter (the left shift
by 8 in the rolling append) carries an explicit reduction modulo 2 ^ 64.
Byte values are Nat values; theorems that depend on byte range carry
explicit hypotheses b < 256.

The upstream io.Reader is modelled as a byte list plus the terminal
condition the reader ends with (end of stream, or some other error).
io.ReadFull is modelled by a single function realising its contract:
it delivers min(bufSize, remaining) bytes and reports an error exactly
when fewer than bufSize bytes were available.  A read counter and an
out-of-bounds flag instrument the state so that the temporal claims
(no read after a terminal signal, staging-buffer access discipline)
become statements about the model.

Go loops in Next are bounded by min and max; they are embedded as
structurally recursive functions whose fuel argument carries exactly the
remaining iteration count of the corresponding for loop, so that every
definition evaluates inside the kernel.
-/

/-- Bit length of a natural number below 2 ^ fuel; mirrors the Go
standard library function bits.Len64 when fuel = 64. -/
def bitLenAux : Nat → Nat → Nat
  | 0, _ => 0
  | fuel + 1, n => if n = 0 then 0 else bitLenAux fuel (n / 2) + 1

/-- Bit length of a uint64, as used by deg in rabin.go: bits.Len64. -/
def bitLen (n : Nat) : Nat := bitLenAux 64 n

/-- deg returns the degree of a polynomial p over GF(2) packed in a
uint64, and -1 if p = 0; from rabin.go. -/
def deg (p : Nat) : Int := (bitLen p : Int) - 1

/-- One iteration of the mod loop from rabin.go: p ^= q << (dp - dq),
where dp, dq are the degrees of p and q. -/
def modStep (p q : Nat) : Nat := p ^^^ (q <<< (bitLen p - bitLen q))

/-- The loop of mod from rabin.go, with fuel bounding the number of
iterations: while deg q <= deg p, subtract q shifted to the top of p. -/
def modAux : Nat → Nat → Nat → Nat
  | 0, p, _ => p
  | fuel + 1, p, q => if deg q ≤ deg p then modAux fuel (modStep p q) q else p

/-- mod p q from rabin.go: remainder of polynomial division over GF(2).
The degree of p strictly decreases at each iteration, so bitLen p
iterations always suffice (for q = 0 the Go loop would not terminate;
the function is never called with q = 0 in the package). -/
def mod (p q : Nat) : Nat := modAux (bitLen p) p q

/-- appendByte from rabin.go: sum <<= 8 (on uint64); sum |= b;
mod(sum, poly). -/
def appendByte (sum b poly : Nat) : Nat := mod ((sum <<< 8) % 2 ^ 64 ||| b) poly

/-- KiB constant from chunker.go. -/
def KiB : Nat := 1024

/-- MiB constant from chunker.go. -/
def MiB : Nat := 1024 * 1024

/-- Default irreducible polynomial from rabin.go. -/
def defaultPoly : Nat := 0x3DA3358B4DC173

/-- Default minimal chunk size from rabin.go. -/
def minSize : Nat := 512 * KiB

/-- Default maximal chunk size from rabin.go. -/
def maxSize : Nat := 8 * MiB

/-- Average chunk size from rabin.go. -/
def avgSize : Nat := 1 * MiB

/-- Boundary mask from rabin.go: avgSize - 1. -/
def mask : Nat := avgSize - 1

/-- Sliding window size from rabin.go. -/
def winSize : Nat := 64

/-- Staging buffer size from rabin.go. -/
def bufSize : Nat := 512 * KiB

/-- First table built by calcTables in rabin.go: outTable b is the hash
contribution of byte b after it has been shifted through the whole
window: h := appendByte 0 b, then the loop appends the zero byte
winSize - 1 times. -/
def outTable (b : Nat) : Nat :=
  (List.replicate (winSize - 1) 0).foldl (fun h z => appendByte h z defaultPoly)
    (appendByte 0 b defaultPoly)

/-- Second table built by calcTables in rabin.go: with k = deg poly,
p = b << k, the entry is mod p poly | p. -/
def modTable (b : Nat) : Nat :=
  mod (b <<< (bitLen defaultPoly - 1)) defaultPoly ||| b <<< (bitLen defaultPoly - 1)

/-- The shift field of the rabin struct: deg(defaultPoly) - 8 = 45. -/
def polyShift : Nat := bitLen defaultPoly - 1 - 8

example : bitLen defaultPoly = 54 := by decide
example : polyShift = 45 := by decide

/- ### Bit length arithmetic -/

theorem size_div_two_succ {n : Nat} (h : n ≠ 0) : Nat.size n = Nat.size (n / 2) + 1 := by
  apply le_antisymm
  · apply Nat.size_le.mpr
    have h1 : n / 2 < 2 ^ Nat.size (n / 2) := Nat.lt_size_self _
    have h2 : n < 2 * (n / 2) + 2 := by omega
    calc n < 2 * (n / 2) + 2 := h2
    _ ≤ 2 * 2 ^ Nat.size (n / 2) := by omega
    _ = 2 ^ (Nat.size (n / 2) + 1) := by ring
  · by_cases h2 : n / 2 = 0
    · have : n = 1 := by omega
      subst this
      simp
    · have h3 : 0 < Nat.size (n / 2) := Nat.size_pos.mpr (Nat.pos_of_ne_zero h2)
      apply Nat.lt_size.mpr
      have h4 : 2 ^ (Nat.size (n / 2) - 1) ≤ n / 2 :=
        Nat.lt_size.mp (by omega)
      have h5 : 2 ^ Nat.size (n / 2) = 2 * 2 ^ (Nat.size (n / 2) - 1) := by
        rw [← pow_succ']
        congr 1
        omega
      rw [h5]
      omega

theorem bitLenAux_eq_size : ∀ fuel n, n < 2 ^ fuel → bitLenAux fuel n = Nat.size n := by
  intro fuel
  induction fuel with
  | zero =>
    intro n hn
    have hz : n = 0 := by omega
    subst hz
    exact Nat.size_zero.symm
  | succ f ih =>
    intro n hn
    by_cases h0 : n = 0
    · subst h0
      rw [bitLenAux, if_pos rfl]
      exact Nat.size_zero.symm
    · have hdiv : n / 2 < 2 ^ f := by
        rw [Nat.div_lt_iff_lt_mul (by norm_num)]
        calc n < 2 ^ (f + 1) := hn
        _ = 2 ^ f * 2 := by ring
      rw [bitLenAux, if_neg h0, ih _ hdiv, size_div_two_succ h0]

theorem bitLen_eq_size {n : Nat} (h : n < 2 ^ 64) : bitLen n = Nat.size n :=
  bitLenAux_eq_size 64 n h

theorem lt_two_pow_of_high_bits {x n : Nat} (h : ∀ i, n ≤ i → x.testBit i = false) :
    x < 2 ^ n := by
  by_contra hc
  push_neg at hc
  have hx : x >>> n ≠ 0 := by
    rw [Nat.shiftRight_eq_div_pow]
    have h1 : 0 < 2 ^ n := Nat.two_pow_pos n
    have h2 : 1 ≤ x / 2 ^ n := (Nat.one_le_div_iff h1).mpr hc
    omega
  obtain ⟨i, hi, _⟩ := Nat.exists_most_significant_bit hx
  rw [Nat.testBit_shiftRight] at hi
  rw [h (n + i) (by omega)] at hi
  exact Bool.false_ne_true hi

theorem ge_of_testBit_true {x k : Nat} (h : x.testBit k = true) : 2 ^ k ≤ x := by
  by_contra hc
  push_neg at hc
  rw [Nat.testBit_eq_false_of_lt hc] at h
  exact Bool.false_ne_true h

theorem testBit_top_true {a k : Nat} (h1 : 2 ^ k ≤ a) (h2 : a < 2 ^ (k + 1)) :
    a.testBit k = true := by
  rw [Nat.testBit_to_div_mod]
  have hdiv : a / 2 ^ k = 1 := by
    apply Nat.div_eq_of_lt_le
    · omega
    · have : (1 + 1) * 2 ^ k = 2 ^ (k + 1) := by ring
      omega
  simp [hdiv]

theorem xor_top_lt {a b k : Nat} (ha1 : 2 ^ k ≤ a) (ha2 : a < 2 ^ (k + 1))
    (hb1 : 2 ^ k ≤ b) (hb2 : b < 2 ^ (k + 1)) : a ^^^ b < 2 ^ k := by
  apply lt_two_pow_of_high_bits
  intro i hi
  rw [Nat.testBit_xor]
  rcases Nat.lt_or_ge k i with h | h
  · have hp : 2 ^ (k + 1) ≤ 2 ^ i := Nat.pow_le_pow_right (by norm_num) (by omega)
    rw [Nat.testBit_eq_false_of_lt (by omega), Nat.testBit_eq_false_of_lt (by omega)]
    rfl
  · have hik : i = k := by omega
    subst hik
    rw [testBit_top_true ha1 ha2, testBit_top_true hb1 hb2]
    rfl

theorem size_xor_eq {p y : Nat} (hp : p ≠ 0) (hy : y < 2 ^ (Nat.size p - 1)) :
    Nat.size (p ^^^ y) = Nat.size p := by
  have hp1 : 0 < Nat.size p := Nat.size_pos.mpr (Nat.pos_of_ne_zero hp)
  apply le_antisymm
  · apply Nat.size_le.mpr
    have h1 : p < 2 ^ Nat.size p := Nat.lt_size_self p
    have h2 : y < 2 ^ Nat.size p := by
      have : (2 : Nat) ^ (Nat.size p - 1) ≤ 2 ^ Nat.size p :=
        Nat.pow_le_pow_right (by norm_num) (by omega)
      omega
    exact Nat.xor_lt_two_pow h1 h2
  · have htop : (p ^^^ y).testBit (Nat.size p - 1) = true := by
      rw [Nat.testBit_xor]
      have h1 : p.testBit (Nat.size p - 1) = true := by
        apply testBit_top_true
        · exact Nat.lt_size.mp (by omega)
        · have : Nat.size p - 1 + 1 = Nat.size p := by omega
          rw [this]
          exact Nat.lt_size_self p
      rw [h1, Nat.testBit_eq_false_of_lt hy]
      rfl
    have h2 : 2 ^ (Nat.size p - 1) ≤ p ^^^ y := ge_of_testBit_true htop
    have h3 : Nat.size p - 1 < Nat.size (p ^^^ y) := Nat.lt_size.mpr h2
    omega

/- ### The mod loop -/

theorem deg_le_iff {p q : Nat} (hp : p < 2 ^ 64) (hq : q < 2 ^ 64) :
    deg q ≤ deg p ↔ Nat.size q ≤ Nat.size p := by
  unfold deg
  rw [bitLen_eq_size hp, bitLen_eq_size hq]
  omega

theorem modStep_eq {p q : Nat} (hp : p < 2 ^ 64) (hq : q < 2 ^ 64) :
    modStep p q = p ^^^ (q <<< (Nat.size p - Nat.size q)) := by
  unfold modStep
  rw [bitLen_eq_size hp, bitLen_eq_size hq]

theorem size_le_64 {p : Nat} (hp : p < 2 ^ 64) : Nat.size p ≤ 64 := Nat.size_le.mpr hp

theorem shiftLeft_lt_of_size {q s k : Nat} (hq : q < 2 ^ (k - s)) (hs : s ≤ k) :
    q <<< s < 2 ^ k := by
  rw [Nat.shiftLeft_eq]
  calc q * 2 ^ s < 2 ^ (k - s) * 2 ^ s := by
        have := Nat.two_pow_pos s
        exact Nat.mul_lt_mul_of_lt_of_le hq (le_refl _) (Nat.two_pow_pos s)
  _ = 2 ^ k := by
        rw [← pow_add]
        congr 1
        omega

theorem modStep_lt {p q : Nat} (hp0 : p ≠ 0) (hq0 : q ≠ 0) (hp : p < 2 ^ 64)
    (hq : q < 2 ^ 64) (hle : Nat.size q ≤ Nat.size p) :
    modStep p q < 2 ^ (Nat.size p - 1) := by
  rw [modStep_eq hp hq]
  have hszp : 0 < Nat.size p := Nat.size_pos.mpr (Nat.pos_of_ne_zero hp0)
  have hszq : 0 < Nat.size q := Nat.size_pos.mpr (Nat.pos_of_ne_zero hq0)
  have hsz : Nat.size (q <<< (Nat.size p - Nat.size q)) = Nat.size p := by
    rw [Nat.size_shiftLeft hq0]
    omega
  have hk : Nat.size p - 1 + 1 = Nat.size p := by omega
  apply xor_top_lt
  · exact Nat.lt_size.mp (by omega)
  · rw [hk]
    exact Nat.lt_size_self p
  · apply Nat.lt_size.mp
    rw [hsz]
    omega
  · have hlt := Nat.lt_size_self (q <<< (Nat.size p - Nat.size q))
    rw [hsz] at hlt
    rw [hk]
    exact hlt

theorem modStep_lt_self {p q : Nat} (hp0 : p ≠ 0) (hq0 : q ≠ 0) (hp : p < 2 ^ 64)
    (hq : q < 2 ^ 64) (hle : Nat.size q ≤ Nat.size p) : modStep p q < p := by
  have h1 := modStep_lt hp0 hq0 hp hq hle
  have hszp : 0 < Nat.size p := Nat.size_pos.mpr (Nat.pos_of_ne_zero hp0)
  have h2 : 2 ^ (Nat.size p - 1) ≤ p := Nat.lt_size.mp (by omega)
  omega

theorem modAux_of_not {p q : Nat} (h : ¬ deg q ≤ deg p) : ∀ f, modAux f p q = p := by
  intro f
  cases f with
  | zero => rfl
  | succ f => rw [modAux, if_neg h]

theorem modAux_congr {q : Nat} (hq0 : q ≠ 0) (hq : q < 2 ^ 64) :
    ∀ f g p, p < 2 ^ 64 → Nat.size p ≤ f → Nat.size p ≤ g →
      modAux f p q = modAux g p q := by
  intro f
  induction f with
  | zero =>
    intro g p hp hf hg
    have hsz0 : Nat.size p = 0 := by omega
    have hp0 : p = 0 := Nat.size_eq_zero.mp hsz0
    subst hp0
    have h00 : (0 : Nat) < 2 ^ 64 := by norm_num
    have hnot : ¬ deg q ≤ deg 0 := by
      rw [deg_le_iff h00 hq, Nat.size_zero]
      have : 0 < Nat.size q := Nat.size_pos.mpr (Nat.pos_of_ne_zero hq0)
      omega
    rw [modAux_of_not hnot, modAux_of_not hnot]
  | succ f ih =>
    intro g p hp hf hg
    by_cases hc : deg q ≤ deg p
    · have hp0 : p ≠ 0 := by
        intro h0
        subst h0
        rw [deg_le_iff (by norm_num) hq] at hc
        have : 0 < Nat.size q := Nat.size_pos.mpr (Nat.pos_of_ne_zero hq0)
        simp [Nat.size_zero] at hc
        omega
      have hle : Nat.size q ≤ Nat.size p := (deg_le_iff hp hq).mp hc
      have hszp : 0 < Nat.size p := Nat.size_pos.mpr (Nat.pos_of_ne_zero hp0)
      have hstep := modStep_lt hp0 hq0 hp hq hle
      have hstep64 : modStep p q < 2 ^ 64 := by
        have : (2 : Nat) ^ (Nat.size p - 1) ≤ 2 ^ 64 :=
          Nat.pow_le_pow_right (by norm_num) (by have := size_le_64 hp; omega)
        omega
      have hstepsz : Nat.size (modStep p q) ≤ Nat.size p - 1 := Nat.size_le.mpr hstep
      cases g with
      | zero => omega
      | succ g =>
        rw [modAux, if_pos hc, modAux, if_pos hc]
        exact ih g (modStep p q) hstep64 (by omega) (by omega)
    · rw [modAux_of_not hc, modAux_of_not hc]

theorem mod_eq_self {p q : Nat} (h : ¬ deg q ≤ deg p) : mod p q = p :=
  modAux_of_not h _

theorem mod_eq_step {p q : Nat} (hq0 : q ≠ 0) (hp : p < 2 ^ 64) (hq : q < 2 ^ 64)
    (h : deg q ≤ deg p) : mod p q = mod (modStep p q) q := by
  have hp0 : p ≠ 0 := by
    intro h0
    subst h0
    have h00 : (0 : Nat) < 2 ^ 64 := by norm_num
    rw [deg_le_iff h00 hq, Nat.size_zero] at h
    have : 0 < Nat.size q := Nat.size_pos.mpr (Nat.pos_of_ne_zero hq0)
    omega
  have hle : Nat.size q ≤ Nat.size p := (deg_le_iff hp hq).mp h
  have hszp : 0 < Nat.size p := Nat.size_pos.mpr (Nat.pos_of_ne_zero hp0)
  have hstep := modStep_lt hp0 hq0 hp hq hle
  have hstep64 : modStep p q < 2 ^ 64 := by
    have : (2 : Nat) ^ (Nat.size p - 1) ≤ 2 ^ 64 :=
      Nat.pow_le_pow_right (by norm_num) (by have := size_le_64 hp; omega)
    omega
  have hstepsz : Nat.size (modStep p q) ≤ Nat.size p - 1 := Nat.size_le.mpr hstep
  unfold mod
  rw [bitLen_eq_size hp, bitLen_eq_size hstep64]
  have hsp : Nat.size p = Nat.size p - 1 + 1 := by omega
  rw [hsp, modAux, if_pos h]
  exact modAux_congr hq0 hq _ _ _ hstep64 (by omega) (le_refl _)

theorem mod_lt {q : Nat} (hq0 : q ≠ 0) (hq : q < 2 ^ 64) :
    ∀ p, p < 2 ^ 64 → mod p q < 2 ^ (Nat.size q - 1) := by
  intro p
  induction p using Nat.strong_induction_on with
  | _ p ih =>
    intro hp
    by_cases hc : deg q ≤ deg p
    · have hp0 : p ≠ 0 := by
        intro h0
        subst h0
        have h00 : (0 : Nat) < 2 ^ 64 := by norm_num
        rw [deg_le_iff h00 hq, Nat.size_zero] at hc
        have : 0 < Nat.size q := Nat.size_pos.mpr (Nat.pos_of_ne_zero hq0)
        omega
      have hle : Nat.size q ≤ Nat.size p := (deg_le_iff hp hq).mp hc
      have hlt := modStep_lt_self hp0 hq0 hp hq hle
      rw [mod_eq_step hq0 hp hq hc]
      exact ih _ hlt (by omega)
    · rw [mod_eq_self hc]
      rw [deg_le_iff hp hq] at hc
      have hszq : 0 < Nat.size q := Nat.size_pos.mpr (Nat.pos_of_ne_zero hq0)
      apply Nat.size_le.mp
      omega

theorem mod_low {p q : Nat} (hq0 : q ≠ 0) (hq : q < 2 ^ 64)
    (hp : p < 2 ^ (Nat.size q - 1)) : mod p q = p := by
  have hszq : 0 < Nat.size q := Nat.size_pos.mpr (Nat.pos_of_ne_zero hq0)
  have hq64 : Nat.size q ≤ 64 := size_le_64 hq
  have hp64 : p < 2 ^ 64 := by
    have h1 : (2 : Nat) ^ (Nat.size q - 1) ≤ 2 ^ 64 :=
      Nat.pow_le_pow_right (by norm_num) (by omega)
    omega
  apply mod_eq_self
  rw [deg_le_iff hp64 hq]
  have h2 : Nat.size p ≤ Nat.size q - 1 := Nat.size_le.mpr hp
  omega

theorem mod_xor_low {q y : Nat} (hq0 : q ≠ 0) (hq : q < 2 ^ 64)
    (hy : y < 2 ^ (Nat.size q - 1)) :
    ∀ p, p < 2 ^ 64 → mod (p ^^^ y) q = mod p q ^^^ y := by
  have hszq : 0 < Nat.size q := Nat.size_pos.mpr (Nat.pos_of_ne_zero hq0)
  have hq64 : Nat.size q ≤ 64 := size_le_64 hq
  have hy64 : y < 2 ^ 64 := by
    have h1 : (2 : Nat) ^ (Nat.size q - 1) ≤ 2 ^ 64 :=
      Nat.pow_le_pow_right (by norm_num) (by omega)
    omega
  intro p
  induction p using Nat.strong_induction_on with
  | _ p ih =>
    intro hp
    by_cases hc : deg q ≤ deg p
    · have hp0 : p ≠ 0 := by
        intro h0
        subst h0
        have h00 : (0 : Nat) < 2 ^ 64 := by norm_num
        rw [deg_le_iff h00 hq, Nat.size_zero] at hc
        omega
      have hle : Nat.size q ≤ Nat.size p := (deg_le_iff hp hq).mp hc
      have hszp : 0 < Nat.size p := Nat.size_pos.mpr (Nat.pos_of_ne_zero hp0)
      have hylow : y < 2 ^ (Nat.size p - 1) := by
        have h1 : (2 : Nat) ^ (Nat.size q - 1) ≤ 2 ^ (Nat.size p - 1) :=
          Nat.pow_le_pow_right (by norm_num) (by omega)
        omega
      have hxy64 : p ^^^ y < 2 ^ 64 := Nat.xor_lt_two_pow hp hy64
      have hsxy : Nat.size (p ^^^ y) = Nat.size p := size_xor_eq hp0 hylow
      have hcxy : deg q ≤ deg (p ^^^ y) := by
        rw [deg_le_iff hxy64 hq, hsxy]
        exact hle
      have hstepxy : modStep (p ^^^ y) q = modStep p q ^^^ y := by
        rw [modStep_eq hxy64 hq, modStep_eq hp hq, hsxy]
        rw [Nat.xor_comm p y, Nat.xor_assoc]
        rw [Nat.xor_comm y _]
      rw [mod_eq_step hq0 hxy64 hq hcxy, hstepxy]
      have hlt := modStep_lt_self hp0 hq0 hp hq hle
      have hstep := modStep_lt hp0 hq0 hp hq hle
      have hstep64 : modStep p q < 2 ^ 64 := by
        have h1 : (2 : Nat) ^ (Nat.size p - 1) ≤ 2 ^ 64 :=
          Nat.pow_le_pow_right (by norm_num) (by have := size_le_64 hp; omega)
        omega
      rw [ih _ hlt hstep64, ← mod_eq_step hq0 hp hq hc]
    · rw [mod_eq_self hc]
      rw [deg_le_iff hp hq] at hc
      have h2 : Nat.size p ≤ Nat.size q - 1 := by omega
      have hplow : p < 2 ^ (Nat.size q - 1) := by
        have h3 : p < 2 ^ Nat.size p := Nat.lt_size_self p
        have h4 : (2 : Nat) ^ Nat.size p ≤ 2 ^ (Nat.size q - 1) :=
          Nat.pow_le_pow_right (by norm_num) h2
        omega
      have hxylow : p ^^^ y < 2 ^ (Nat.size q - 1) := Nat.xor_lt_two_pow hplow hy
      exact mod_low hq0 hq hxylow

theorem mod_absorb {q : Nat} (hq0 : q ≠ 0) (hq : q < 2 ^ 64) (s : Nat)
    (hs : Nat.size q + s ≤ 64) :
    ∀ x, x < 2 ^ 64 → mod (x ^^^ q <<< s) q = mod x q := by
  have hszq : 0 < Nat.size q := Nat.size_pos.mpr (Nat.pos_of_ne_zero hq0)
  have hz0 : q <<< s ≠ 0 := by
    rw [Nat.shiftLeft_eq]
    have := Nat.two_pow_pos s
    have := Nat.pos_of_ne_zero hq0
    positivity
  have hszz : Nat.size (q <<< s) = Nat.size q + s := Nat.size_shiftLeft hq0 s
  have hz64 : q <<< s < 2 ^ 64 := by
    have h1 : q <<< s < 2 ^ Nat.size (q <<< s) := Nat.lt_size_self _
    have h2 : (2 : Nat) ^ Nat.size (q <<< s) ≤ 2 ^ 64 := by
      apply Nat.pow_le_pow_right (by norm_num)
      omega
    omega
  intro x
  induction x using Nat.strong_induction_on with
  | _ x ih =>
    intro hx
    rcases Nat.lt_trichotomy (Nat.size x) (Nat.size q + s) with hlt | heq | hgt
    · have hxlow : x < 2 ^ (Nat.size q + s - 1) := by
        have h1 : x < 2 ^ Nat.size x := Nat.lt_size_self x
        have h2 : (2 : Nat) ^ Nat.size x ≤ 2 ^ (Nat.size q + s - 1) :=
          Nat.pow_le_pow_right (by norm_num) (by omega)
        omega
      have hsxz : Nat.size (x ^^^ q <<< s) = Nat.size q + s := by
        rw [Nat.xor_comm]
        rw [size_xor_eq hz0 (by rw [hszz]; exact hxlow)]
        exact hszz
      have hxz64 : x ^^^ q <<< s < 2 ^ 64 := Nat.xor_lt_two_pow hx hz64
      have hcz : deg q ≤ deg (x ^^^ q <<< s) := by
        rw [deg_le_iff hxz64 hq, hsxz]
        omega
      rw [mod_eq_step hq0 hxz64 hq hcz]
      congr 1
      rw [modStep_eq hxz64 hq, hsxz]
      have hshift : Nat.size q + s - Nat.size q = s := by omega
      rw [hshift, Nat.xor_assoc, Nat.xor_self, Nat.xor_zero]
    · have hx0 : x ≠ 0 := by
        intro h0
        subst h0
        rw [Nat.size_zero] at heq
        omega
      have hcx : deg q ≤ deg x := by
        rw [deg_le_iff hx hq]
        omega
      rw [mod_eq_step hq0 hx hq hcx]
      congr 1
      rw [modStep_eq hx hq]
      have hshift : Nat.size x - Nat.size q = s := by omega
      rw [hshift]
    · have hx0 : x ≠ 0 := by
        intro h0
        subst h0
        rw [Nat.size_zero] at hgt
        omega
      have hszx : 0 < Nat.size x := Nat.size_pos.mpr (Nat.pos_of_ne_zero hx0)
      have hzlow : q <<< s < 2 ^ (Nat.size x - 1) := by
        have h1 : q <<< s < 2 ^ Nat.size (q <<< s) := Nat.lt_size_self _
        have h2 : (2 : Nat) ^ Nat.size (q <<< s) ≤ 2 ^ (Nat.size x - 1) :=
          Nat.pow_le_pow_right (by norm_num) (by omega)
        omega
      have hsxz : Nat.size (x ^^^ q <<< s) = Nat.size x := size_xor_eq hx0 hzlow
      have hxz64 : x ^^^ q <<< s < 2 ^ 64 := Nat.xor_lt_two_pow hx hz64
      have hcx : deg q ≤ deg x := by
        rw [deg_le_iff hx hq]
        omega
      have hcz : deg q ≤ deg (x ^^^ q <<< s) := by
        rw [deg_le_iff hxz64 hq, hsxz]
        omega
      have hle : Nat.size q ≤ Nat.size x := by omega
      have hstepxz : modStep (x ^^^ q <<< s) q = modStep x q ^^^ q <<< s := by
        rw [modStep_eq hxz64 hq, modStep_eq hx hq, hsxz]
        rw [Nat.xor_comm x (q <<< s), Nat.xor_assoc]
        rw [Nat.xor_comm (q <<< s) _]
      have hlt := modStep_lt_self hx0 hq0 hx hq hle
      have hstep64 : modStep x q < 2 ^ 64 := by
        have h1 := modStep_lt hx0 hq0 hx hq hle
        have h2 : (2 : Nat) ^ (Nat.size x - 1) ≤ 2 ^ 64 :=
          Nat.pow_le_pow_right (by norm_num) (by have := size_le_64 hx; omega)
        omega
      rw [mod_eq_step hq0 hxz64 hq hcz, hstepxz, ih _ hlt hstep64,
        ← mod_eq_step hq0 hx hq hcx]

theorem mod_xor {q : Nat} (hq0 : q ≠ 0) (hq : q < 2 ^ 64) :
    ∀ a, a < 2 ^ 64 → ∀ b, b < 2 ^ 64 →
      mod (a ^^^ b) q = mod a q ^^^ mod b q := by
  have hszq : 0 < Nat.size q := Nat.size_pos.mpr (Nat.pos_of_ne_zero hq0)
  intro a
  induction a using Nat.strong_induction_on with
  | _ a ih =>
    intro ha b hb
    by_cases hc : deg q ≤ deg a
    · have ha0 : a ≠ 0 := by
        intro h0
        subst h0
        have h00 : (0 : Nat) < 2 ^ 64 := by norm_num
        rw [deg_le_iff h00 hq, Nat.size_zero] at hc
        omega
      have hle : Nat.size q ≤ Nat.size a := (deg_le_iff ha hq).mp hc
      have hsza : 0 < Nat.size a := Nat.size_pos.mpr (Nat.pos_of_ne_zero ha0)
      have hkey : modStep a q ^^^ q <<< (Nat.size a - Nat.size q) = a := by
        rw [modStep_eq ha hq, Nat.xor_cancel_right]
      have hsplit : a ^^^ b = (modStep a q ^^^ b) ^^^ q <<< (Nat.size a - Nat.size q) := by
        rw [Nat.xor_assoc, Nat.xor_comm b _, ← Nat.xor_assoc, hkey]
      have hlt := modStep_lt_self ha0 hq0 ha hq hle
      have hstep64 : modStep a q < 2 ^ 64 := by
        have h1 := modStep_lt ha0 hq0 ha hq hle
        have h2 : (2 : Nat) ^ (Nat.size a - 1) ≤ 2 ^ 64 :=
          Nat.pow_le_pow_right (by norm_num) (by have := size_le_64 ha; omega)
        omega
      have hs64 : Nat.size q + (Nat.size a - Nat.size q) ≤ 64 := by
        have := size_le_64 ha
        omega
      rw [hsplit, mod_absorb hq0 hq _ hs64 _ (Nat.xor_lt_two_pow hstep64 hb),
        ih _ hlt hstep64 b hb, ← mod_eq_step hq0 ha hq hc]
    · have hclow : a < 2 ^ (Nat.size q - 1) := by
        rw [deg_le_iff ha hq] at hc
        have h1 : a < 2 ^ Nat.size a := Nat.lt_size_self a
        have h2 : (2 : Nat) ^ Nat.size a ≤ 2 ^ (Nat.size q - 1) :=
          Nat.pow_le_pow_right (by norm_num) (by omega)
        omega
      rw [mod_eq_self hc, Nat.xor_comm a b, mod_xor_low hq0 hq hclow b hb,
        Nat.xor_comm _ a]

/- ### The table-based rolling append -/

/-- The append method of the rabin struct from rabin.go:
index := byte(digest >> shift); digest <<= 8; digest |= b;
digest ^= modTable[index], all on uint64. -/
def appendStep (digest b : Nat) : Nat :=
  ((digest <<< 8) % 2 ^ 64 ||| b) ^^^ modTable ((digest >>> polyShift) &&& 255)

theorem shiftLeft_or_eq_xor {a b k : Nat} (hb : b < 2 ^ k) :
    a <<< k ||| b = a <<< k ^^^ b := by
  apply Nat.eq_of_testBit_eq
  intro j
  rw [Nat.testBit_or, Nat.testBit_xor, Nat.testBit_shiftLeft]
  rcases Nat.lt_or_ge j k with h | h
  · have hd : decide (j ≥ k) = false := by simp; omega
    rw [hd]
    simp
  · have hbj : b.testBit j = false := by
      apply Nat.testBit_eq_false_of_lt
      have : (2 : Nat) ^ k ≤ 2 ^ j := Nat.pow_le_pow_right (by norm_num) h
      omega
    rw [hbj]
    simp

theorem shiftRight_or_shiftLeft {d b u v : Nat} (hb : b < 2 ^ u) (huv : u ≤ v) :
    (d <<< u ||| b) >>> v = d >>> (v - u) := by
  apply Nat.eq_of_testBit_eq
  intro j
  rw [Nat.testBit_shiftRight, Nat.testBit_shiftRight, Nat.testBit_or,
    Nat.testBit_shiftLeft]
  have hbj : b.testBit (v + j) = false := by
    apply Nat.testBit_eq_false_of_lt
    have : (2 : Nat) ^ u ≤ 2 ^ (v + j) := Nat.pow_le_pow_right (by norm_num) (by omega)
    omega
  have hd : decide (v + j ≥ u) = true := by simp; omega
  rw [hbj, hd]
  have harg : v + j - u = v - u + j := by omega
  rw [harg]
  simp

theorem xor_decomp {x k : Nat} : x = (x >>> k) <<< k ^^^ x % 2 ^ k := by
  apply Nat.eq_of_testBit_eq
  intro j
  rw [Nat.testBit_xor, Nat.testBit_shiftLeft, Nat.testBit_shiftRight,
    Nat.testBit_mod_two_pow]
  rcases Nat.lt_or_ge j k with h | h
  · have hd : decide (j ≥ k) = false := by simp; omega
    have hd2 : decide (j < k) = true := by simp; omega
    rw [hd, hd2]
    simp
  · have hd : decide (j ≥ k) = true := by simp; omega
    have hd2 : decide (j < k) = false := by simp; omega
    have harg : k + (j - k) = j := by omega
    rw [hd, hd2, harg]
    simp

theorem xor_xor_cancel_left (a l m : Nat) : a ^^^ l ^^^ (a ^^^ m) = m ^^^ l := by
  rw [Nat.xor_comm a l, Nat.xor_assoc, Nat.xor_cancel_left, Nat.xor_comm]

theorem defaultPoly_ne_zero : defaultPoly ≠ 0 := by decide

theorem defaultPoly_lt : defaultPoly < 2 ^ 64 := by decide

theorem size_defaultPoly : Nat.size defaultPoly = 54 := by
  rw [← bitLen_eq_size defaultPoly_lt]
  decide

theorem mod_poly_lt {x : Nat} (hx : x < 2 ^ 64) : mod x defaultPoly < 2 ^ 53 := by
  have h := mod_lt defaultPoly_ne_zero defaultPoly_lt x hx
  rw [size_defaultPoly] at h
  have h2 : (54 : Nat) - 1 = 53 := by norm_num
  rw [h2] at h
  exact h

/-- Core refinement: on an already reduced digest, the table-based append
step computes exactly the reference appendByte. -/
theorem appendStep_eq_appendByte {d b : Nat} (hd : d < 2 ^ 53) (hb : b < 256) :
    appendStep d b = appendByte d b defaultPoly := by
  have hps : polyShift = 45 := by decide
  have h53 : bitLen defaultPoly - 1 = 53 := by decide
  have hd8 : d <<< 8 < 2 ^ 64 := by
    rw [Nat.shiftLeft_eq]
    have h1 : d * 2 ^ 8 < 2 ^ 53 * 2 ^ 8 := by
      have := Nat.two_pow_pos 8
      exact Nat.mul_lt_mul_of_lt_of_le hd (le_refl _) this
    have h2 : (2 : Nat) ^ 53 * 2 ^ 8 = 2 ^ 61 := by norm_num
    have h3 : (2 : Nat) ^ 61 < 2 ^ 64 := by norm_num
    omega
  have hmod64 : (d <<< 8) % 2 ^ 64 = d <<< 8 := Nat.mod_eq_of_lt hd8
  set x := d <<< 8 ||| b with hxdef
  have hx64 : x < 2 ^ 64 := by
    rw [hxdef, shiftLeft_or_eq_xor (by omega : b < 2 ^ 8)]
    exact Nat.xor_lt_two_pow hd8 (by omega)
  have hidx : (d >>> polyShift) &&& 255 = x >>> 53 := by
    rw [hps, hxdef, shiftRight_or_shiftLeft (by omega : b < 2 ^ 8) (by omega : 8 ≤ 53)]
    have h1 : (53 : Nat) - 8 = 45 := by omega
    rw [h1]
    have h2 : d >>> 45 < 2 ^ 8 := by
      rw [Nat.shiftRight_eq_div_pow]
      have h3 : d / 2 ^ 45 < 2 ^ 53 / 2 ^ 45 ∨ d / 2 ^ 45 ≤ 2 ^ 53 / 2 ^ 45 := by
        right
        exact Nat.div_le_div_right (by omega)
      have h4 : (2 : Nat) ^ 53 / 2 ^ 45 = 2 ^ 8 := by norm_num
      have h5 : d / 2 ^ 45 ≤ 2 ^ 8 := by
        rcases h3 with h | h
        · omega
        · omega
      rcases Nat.eq_or_lt_of_le h5 with h | h
      · exfalso
        have h6 : d ≥ 2 ^ 8 * 2 ^ 45 := by
          have := Nat.div_mul_le_self d (2 ^ 45)
          have h7 : 2 ^ 8 * 2 ^ 45 ≤ d / 2 ^ 45 * 2 ^ 45 := by
            rw [h]
          omega
        have h8 : (2 : Nat) ^ 8 * 2 ^ 45 = 2 ^ 53 := by norm_num
        omega
      · exact h
    have h9 : (255 : Nat) = 2 ^ 8 - 1 := by norm_num
    rw [h9, Nat.and_pow_two_sub_one_eq_mod]
    exact Nat.mod_eq_of_lt h2
  set i := x >>> 53 with hidef
  have hi8 : i < 2 ^ 8 := by
    rw [← hidx]
    have h9 : (255 : Nat) = 2 ^ 8 - 1 := by norm_num
    rw [h9, Nat.and_pow_two_sub_one_eq_mod]
    exact Nat.mod_lt _ (by norm_num)
  have hi64 : i <<< 53 < 2 ^ 64 := by
    rw [Nat.shiftLeft_eq]
    have h1 : i * 2 ^ 53 < 2 ^ 8 * 2 ^ 53 :=
      Nat.mul_lt_mul_of_lt_of_le hi8 (le_refl _) (Nat.two_pow_pos 53)
    have h2 : (2 : Nat) ^ 8 * 2 ^ 53 = 2 ^ 61 := by norm_num
    have h3 : (2 : Nat) ^ 61 < 2 ^ 64 := by norm_num
    omega
  have hmtab : modTable i = i <<< 53 ^^^ mod (i <<< 53) defaultPoly := by
    unfold modTable
    rw [h53]
    rw [Nat.or_comm, shiftLeft_or_eq_xor (mod_poly_lt hi64)]
  have hlow : x % 2 ^ 53 < 2 ^ 53 := Nat.mod_lt _ (by norm_num)
  have hdecomp : x = i <<< 53 ^^^ x % 2 ^ 53 := xor_decomp
  have hxlow64 : x % 2 ^ 53 < 2 ^ 64 := by
    have h1 : (2 : Nat) ^ 53 < 2 ^ 64 := by norm_num
    omega
  unfold appendStep appendByte
  rw [hmod64, hidx, ← hxdef, hmtab]
  have hlow53 : x % 2 ^ 53 < 2 ^ (Nat.size defaultPoly - 1) := by
    rw [size_defaultPoly]
    have h54 : (54 : Nat) - 1 = 53 := by norm_num
    rw [h54]
    exact hlow
  have hml : mod (x % 2 ^ 53) defaultPoly = x % 2 ^ 53 :=
    mod_low defaultPoly_ne_zero defaultPoly_lt hlow53
  have hrhs : mod x defaultPoly = mod (i <<< 53) defaultPoly ^^^ x % 2 ^ 53 := by
    conv_lhs => rw [hdecomp]
    rw [mod_xor defaultPoly_ne_zero defaultPoly_lt _ hi64 _ hxlow64, hml]
  rw [hrhs]
  conv_lhs => rw [hdecomp]
  exact xor_xor_cancel_left _ _ _

/- ### Byte-wise hashing of a window -/

theorem or_lt_two_pow_of_lt {a b n : Nat} (ha : a < 2 ^ n) (hb : b < 2 ^ n) :
    a ||| b < 2 ^ n := by
  apply lt_two_pow_of_high_bits
  intro i hi
  have hp : (2 : Nat) ^ n ≤ 2 ^ i := Nat.pow_le_pow_right (by norm_num) hi
  rw [Nat.testBit_or, Nat.testBit_eq_false_of_lt (by omega),
    Nat.testBit_eq_false_of_lt (by omega)]
  rfl

theorem xor_shiftLeft_distrib (a b k : Nat) :
    (a ^^^ b) <<< k = a <<< k ^^^ b <<< k := by
  apply Nat.eq_of_testBit_eq
  intro j
  rw [Nat.testBit_xor, Nat.testBit_shiftLeft, Nat.testBit_shiftLeft,
    Nat.testBit_shiftLeft, Nat.testBit_xor]
  rcases Nat.lt_or_ge j k with h | h
  · have hd : decide (j ≥ k) = false := by simp; omega
    rw [hd]
    simp
  · have hd : decide (j ≥ k) = true := by simp; omega
    rw [hd]
    simp

/-- Hash of a byte string: feed each byte through appendByte starting from
the zero polynomial.  The digest maintained by the chunker equals this
hash of the current window contents. -/
def hashBytes (l : List Nat) : Nat :=
  l.foldl (fun s b => appendByte s b defaultPoly) 0

theorem appendByte_lt {s b : Nat} (hb : b < 256) :
    appendByte s b defaultPoly < 2 ^ 53 := by
  unfold appendByte
  apply mod_poly_lt
  apply or_lt_two_pow_of_lt
  · exact Nat.mod_lt _ (by norm_num)
  · have h1 : (256 : Nat) < 2 ^ 64 := by norm_num
    omega

theorem appendByte_linear {s1 s2 b1 b2 : Nat} (hs1 : s1 < 2 ^ 53) (hs2 : s2 < 2 ^ 53)
    (hb1 : b1 < 256) (hb2 : b2 < 256) :
    appendByte (s1 ^^^ s2) (b1 ^^^ b2) defaultPoly =
      appendByte s1 b1 defaultPoly ^^^ appendByte s2 b2 defaultPoly := by
  have hble : ∀ s : Nat, s < 2 ^ 53 → s <<< 8 < 2 ^ 61 := by
    intro s hs
    rw [Nat.shiftLeft_eq]
    have h1 : s * 2 ^ 8 < 2 ^ 53 * 2 ^ 8 :=
      (Nat.mul_lt_mul_right (Nat.two_pow_pos 8)).mpr hs
    have h2 : (2 : Nat) ^ 53 * 2 ^ 8 = 2 ^ 61 := by norm_num
    omega
  have hxs : s1 ^^^ s2 < 2 ^ 53 := Nat.xor_lt_two_pow hs1 hs2
  have hm1 : (s1 <<< 8) % 2 ^ 64 = s1 <<< 8 := by
    have := hble s1 hs1
    have h3 : (2 : Nat) ^ 61 < 2 ^ 64 := by norm_num
    exact Nat.mod_eq_of_lt (by omega)
  have hm2 : (s2 <<< 8) % 2 ^ 64 = s2 <<< 8 := by
    have := hble s2 hs2
    have h3 : (2 : Nat) ^ 61 < 2 ^ 64 := by norm_num
    exact Nat.mod_eq_of_lt (by omega)
  have hm12 : ((s1 ^^^ s2) <<< 8) % 2 ^ 64 = (s1 ^^^ s2) <<< 8 := by
    have := hble _ hxs
    have h3 : (2 : Nat) ^ 61 < 2 ^ 64 := by norm_num
    exact Nat.mod_eq_of_lt (by omega)
  have hb256 : ∀ u : Nat, u < 256 → u < 2 ^ 8 := by intro u hu; omega
  unfold appendByte
  rw [hm1, hm2, hm12]
  rw [shiftLeft_or_eq_xor (hb256 _ hb1), shiftLeft_or_eq_xor (hb256 _ hb2),
    shiftLeft_or_eq_xor (hb256 _ (by have := Nat.xor_lt_two_pow (hb256 _ hb1) (hb256 _ hb2); omega)),
    xor_shiftLeft_distrib]
  have hx1 : s1 <<< 8 ^^^ b1 < 2 ^ 64 := by
    have h1 := hble s1 hs1
    have h2 : b1 < 2 ^ 61 := by norm_num; omega
    have h3 := Nat.xor_lt_two_pow h1 h2
    have h4 : (2 : Nat) ^ 61 < 2 ^ 64 := by norm_num
    omega
  have hx2 : s2 <<< 8 ^^^ b2 < 2 ^ 64 := by
    have h1 := hble s2 hs2
    have h2 : b2 < 2 ^ 61 := by norm_num; omega
    have h3 := Nat.xor_lt_two_pow h1 h2
    have h4 : (2 : Nat) ^ 61 < 2 ^ 64 := by norm_num
    omega
  have hmix : s1 <<< 8 ^^^ s2 <<< 8 ^^^ (b1 ^^^ b2) =
      (s1 <<< 8 ^^^ b1) ^^^ (s2 <<< 8 ^^^ b2) := by
    apply Nat.eq_of_testBit_eq
    intro j
    simp only [Nat.testBit_xor]
    cases (s1 <<< 8).testBit j <;> cases (s2 <<< 8).testBit j <;>
      cases b1.testBit j <;> cases b2.testBit j <;> rfl
  rw [hmix]
  exact mod_xor defaultPoly_ne_zero defaultPoly_lt _ hx1 _ hx2

theorem hashFold_lt : ∀ (l : List Nat) (s : Nat), s < 2 ^ 53 → (∀ b ∈ l, b < 256) →
    l.foldl (fun s b => appendByte s b defaultPoly) s < 2 ^ 53 := by
  intro l
  induction l with
  | nil => intro s hs _; exact hs
  | cons b t ih =>
    intro s hs hb
    rw [List.foldl_cons]
    exact ih _ (appendByte_lt (hb b (by simp))) (fun x hx => hb x (by simp [hx]))

theorem hashBytes_lt {l : List Nat} (h : ∀ b ∈ l, b < 256) : hashBytes l < 2 ^ 53 :=
  hashFold_lt l 0 (by norm_num) h

theorem hashFold_linear : ∀ (l1 l2 : List Nat) (s1 s2 : Nat), l1.length = l2.length →
    (∀ b ∈ l1, b < 256) → (∀ b ∈ l2, b < 256) → s1 < 2 ^ 53 → s2 < 2 ^ 53 →
    (List.zipWith (fun a b => a ^^^ b) l1 l2).foldl
        (fun s b => appendByte s b defaultPoly) (s1 ^^^ s2) =
      l1.foldl (fun s b => appendByte s b defaultPoly) s1 ^^^
        l2.foldl (fun s b => appendByte s b defaultPoly) s2 := by
  intro l1
  induction l1 with
  | nil =>
    intro l2 s1 s2 hlen _ _ _ _
    have h2 : l2 = [] := by
      cases l2 with
      | nil => rfl
      | cons x t => simp at hlen
    subst h2
    rfl
  | cons b1 t1 ih =>
    intro l2 s1 s2 hlen hb1 hb2 hs1 hs2
    cases l2 with
    | nil => simp at hlen
    | cons b2 t2 =>
      rw [List.zipWith_cons_cons, List.foldl_cons, List.foldl_cons, List.foldl_cons]
      rw [appendByte_linear hs1 hs2 (hb1 b1 (by simp)) (hb2 b2 (by simp))]
      exact ih t2 _ _ (by simpa using hlen)
        (fun x hx => hb1 x (by simp [hx])) (fun x hx => hb2 x (by simp [hx]))
        (appendByte_lt (hb1 b1 (by simp))) (appendByte_lt (hb2 b2 (by simp)))

theorem hashBytes_zip_xor {l1 l2 : List Nat} (hlen : l1.length = l2.length)
    (h1 : ∀ b ∈ l1, b < 256) (h2 : ∀ b ∈ l2, b < 256) :
    hashBytes (List.zipWith (fun a b => a ^^^ b) l1 l2) = hashBytes l1 ^^^ hashBytes l2 := by
  unfold hashBytes
  have h0 : (0 : Nat) = 0 ^^^ 0 := rfl
  rw [h0] at *
  exact hashFold_linear l1 l2 0 0 hlen h1 h2 (by norm_num) (by norm_num)

theorem appendByte_zero_zero : appendByte 0 0 defaultPoly = 0 := by decide

theorem hashBytes_cons_zero (l : List Nat) : hashBytes (0 :: l) = hashBytes l := by
  unfold hashBytes
  rw [List.foldl_cons]
  have h : appendByte 0 0 defaultPoly = 0 := appendByte_zero_zero
  rw [h]

theorem hashBytes_append_one (l : List Nat) (b : Nat) :
    hashBytes (l ++ [b]) = appendByte (hashBytes l) b defaultPoly := by
  unfold hashBytes
  rw [List.foldl_append]
  rfl

theorem zipWith_xor_zeros : ∀ l : List Nat,
    List.zipWith (fun a b => a ^^^ b) l (List.replicate l.length 0) = l := by
  intro l
  induction l with
  | nil => rfl
  | cons b t ih =>
    rw [List.length_cons, List.replicate_succ, List.zipWith_cons_cons, Nat.xor_zero, ih]

theorem hashBytes_replicate_zero : ∀ n, hashBytes (List.replicate n 0) = 0 := by
  intro n
  induction n with
  | zero => rfl
  | succ n ih => rw [List.replicate_succ, hashBytes_cons_zero, ih]

theorem outTable_eq_hash (b : Nat) :
    outTable b = hashBytes (b :: List.replicate (winSize - 1) 0) := by
  unfold outTable hashBytes
  rw [List.foldl_cons]

theorem outTable_lt {b : Nat} (hb : b < 256) : outTable b < 2 ^ 53 := by
  rw [outTable_eq_hash]
  apply hashBytes_lt
  intro x hx
  rcases List.mem_cons.mp hx with h | h
  · omega
  · have := List.eq_of_mem_replicate h
    omega

/- ### The chunker state -/

/-- Terminal conditions a read can report: end of stream (io.EOF), the
short-read marker io.ErrUnexpectedEOF, or any other error (identified by
a numeric code). -/
inductive Err where
  | eof : Err
  | unexpectedEof : Err
  | hard : Nat → Err
deriving DecidableEq

/-- The upstream byte source: the bytes it will deliver, followed by the
terminal condition it reports once they are exhausted. -/
structure Source where
  data : List Nat
  fin : Err
deriving DecidableEq

/-- Chunk as built by rabin.go: the digest at the cut point and the chunk
contents. -/
structure Chunk where
  cut : Nat
  data : List Nat
deriving DecidableEq

/-- The rabin struct from rabin.go.  The window and the staging buffer
are index functions; end is renamed endp (Lean keyword).  The poly,
shift, out and mod fields always hold the defaultPoly values set by
NewRabinWithParams, embedded here as the global defs polyShift, outTable
and modTable.  reads counts calls issued to the source and oob records
any staging-buffer read at an index not covered by the current fill;
both only instrument the model and never influence control flow. -/
structure Rabin where
  window : Nat → Nat
  wpos : Nat
  src : Source
  err : Option Err
  bpos : Nat
  start : Nat
  endp : Nat
  buf : Nat → Nat
  lastChunk : List Nat
  min : Nat
  max : Nat
  digest : Nat
  reads : Nat
  oob : Bool

/-- NewRabinWithParams from rabin.go: the zero-value struct with min and
max set (Go zero values: nil reader modelled as an exhausted source). -/
def mkRabin (min max : Nat) : Rabin where
  window := fun _ => 0
  wpos := 0
  src := ⟨[], Err.eof⟩
  err := none
  bpos := 0
  start := 0
  endp := 0
  buf := fun _ => 0
  lastChunk := []
  min := min
  max := max
  digest := 0
  reads := 0
  oob := false

/-- slide from rabin.go: out := window[wpos]; window[wpos] = b;
digest ^= outTable[out]; wpos = (wpos + 1) % winSize; append(b). -/
def slideOp (r : Rabin) (b : Nat) : Rabin :=
  { r with
    window := fun i => if i = r.wpos then b else r.window i
    wpos := (r.wpos + 1) % winSize
    digest := appendStep (r.digest ^^^ outTable (r.window r.wpos)) b }

/-- Reset from rabin.go: rebind the reader, zero digest, bpos and end,
then slide the sentinel byte 1.  Note that err, wpos and the window
contents are not touched. -/
def reset (r : Rabin) (s : Source) : Rabin :=
  slideOp { r with src := s, digest := 0, bpos := 0, endp := 0 } 1

/-- The window contents in stream order, oldest byte first. -/
def windowList (r : Rabin) : List Nat :=
  (List.range winSize).map (fun i => r.window ((r.wpos + i) % winSize))

theorem windowList_length (r : Rabin) : (windowList r).length = winSize := by
  simp [windowList]

theorem slideOp_window (r : Rabin) (b : Nat) :
    (slideOp r b).window = fun i => if i = r.wpos then b else r.window i := rfl

theorem slideOp_wpos (r : Rabin) (b : Nat) :
    (slideOp r b).wpos = (r.wpos + 1) % winSize := rfl

theorem slideOp_digest (r : Rabin) (b : Nat) :
    (slideOp r b).digest = appendStep (r.digest ^^^ outTable (r.window r.wpos)) b := rfl

theorem windowList_slide (r : Rabin) (b : Nat) (hw : r.wpos < winSize) :
    windowList (slideOp r b) = (windowList r).drop 1 ++ [b] := by
  have hws : winSize = 64 := rfl
  rw [hws] at hw
  have hdrop : (windowList r).drop 1 =
      (List.range 63).map (fun i => r.window ((r.wpos + (i + 1)) % 64)) := by
    unfold windowList
    rw [hws]
    have h64 : (64 : Nat) = 63 + 1 := by norm_num
    rw [h64, List.range_succ_eq_map, List.map_cons, List.drop_succ_cons, List.map_map]
    apply List.map_congr_left
    intro i _
    rfl
  have hnew : windowList (slideOp r b) =
      (List.range 63).map (fun i => r.window ((r.wpos + (i + 1)) % 64)) ++ [b] := by
    unfold windowList
    rw [hws]
    have h64 : (64 : Nat) = 63 + 1 := by norm_num
    rw [h64, List.range_succ, List.map_append]
    congr 1
    · apply List.map_congr_left
      intro i hi
      have hi63 : i < 63 := List.mem_range.mp hi
      rw [slideOp_window, slideOp_wpos, hws]
      have h3 : ((r.wpos + 1) % 64 + i) % 64 = (r.wpos + (i + 1)) % 64 := by
        conv_rhs => rw [show r.wpos + (i + 1) = r.wpos + 1 + i by omega]
        rw [Nat.mod_add_mod]
      simp only []
      rw [h3]
      have hne : (r.wpos + (i + 1)) % 64 ≠ r.wpos := by omega
      rw [if_neg hne]
    · simp only [List.map_cons, List.map_nil]
      rw [slideOp_window, slideOp_wpos, hws]
      have h3 : ((r.wpos + 1) % 64 + 63) % 64 = r.wpos := by omega
      simp only []
      rw [h3, if_pos rfl]
  rw [hnew, hdrop]

theorem fold_windowList : ∀ (l : List Nat) (r : Rabin), r.wpos < winSize →
    windowList (List.foldl slideOp r l) = (windowList r ++ l).drop l.length := by
  intro l
  induction l with
  | nil => intro r _; simp
  | cons b t ih =>
    intro r hw
    rw [List.foldl_cons]
    have hw2 : (slideOp r b).wpos < winSize := by
      rw [slideOp_wpos]
      exact Nat.mod_lt _ (by decide)
    rw [ih _ hw2, windowList_slide r b hw]
    have hlen : 1 ≤ (windowList r).length := by rw [windowList_length]; decide
    obtain ⟨w0, W, hW⟩ : ∃ w0 W, windowList r = w0 :: W := by
      cases hwl : windowList r with
      | nil => rw [hwl] at hlen; simp at hlen
      | cons w0 W => exact ⟨w0, W, rfl⟩
    rw [hW]
    simp only [List.drop_succ_cons, List.length_cons, List.cons_append]
    rw [List.append_assoc]
    rfl

/-- Window well-formedness carried through slides: wpos in range, window
holds bytes, and the digest is the hash of the current window. -/
def WfWin (r : Rabin) : Prop :=
  r.wpos < winSize ∧ (∀ i, r.window i < 256) ∧ r.digest = hashBytes (windowList r)

theorem windowList_bytes {r : Rabin} (h : ∀ i, r.window i < 256) :
    ∀ b ∈ windowList r, b < 256 := by
  intro b hb
  unfold windowList at hb
  obtain ⟨i, _, hi⟩ := List.mem_map.mp hb
  rw [← hi]
  exact h _

theorem slideOp_wf {r : Rabin} {b : Nat} (h : WfWin r) (hb : b < 256) :
    WfWin (slideOp r b) := by
  obtain ⟨hw, hwin, hdig⟩ := h
  have hw64 : r.wpos < 64 := hw
  refine ⟨?_, ?_, ?_⟩
  · rw [slideOp_wpos]
    exact Nat.mod_lt _ (by decide)
  · intro i
    rw [slideOp_window]
    simp only []
    by_cases hi : i = r.wpos
    · rw [if_pos hi]; exact hb
    · rw [if_neg hi]; exact hwin i
  · rw [slideOp_digest, windowList_slide r b hw]
    have hlen : (windowList r).length = 64 := windowList_length r
    obtain ⟨w0, W, hW⟩ : ∃ w0 W, windowList r = w0 :: W := by
      cases hwl : windowList r with
      | nil => rw [hwl] at hlen; simp at hlen
      | cons w0 W => exact ⟨w0, W, rfl⟩
    have hhead : w0 = r.window r.wpos := by
      have h0 : (windowList r).headI = r.window ((r.wpos + 0) % 64) := by
        unfold windowList
        have h64 : winSize = 64 := rfl
        rw [h64]
        have hr : (64 : Nat) = 63 + 1 := by norm_num
        rw [hr, List.range_succ_eq_map, List.map_cons]
        rfl
      rw [hW] at h0
      simp at h0
      rw [h0]
      congr 1
      omega
    have hWlen : W.length = winSize - 1 := by
      have := windowList_length r
      rw [hW] at this
      simp at this
      omega
    have hWbytes : ∀ x ∈ W, x < 256 := by
      intro x hx
      apply windowList_bytes hwin
      rw [hW]
      simp [hx]
    have hkey : r.digest ^^^ outTable (r.window r.wpos) = hashBytes W := by
      rw [hdig, ← hhead, outTable_eq_hash]
      rw [← hashBytes_zip_xor]
      · rw [hW]
        rw [List.zipWith_cons_cons, Nat.xor_self]
        rw [← hWlen, zipWith_xor_zeros, hashBytes_cons_zero]
      · rw [hW]
        simp [hWlen]
      · exact windowList_bytes hwin
      · intro x hx
        rcases List.mem_cons.mp hx with h1 | h1
        · rw [h1]
          apply windowList_bytes hwin
          rw [hW]
          simp
        · have := List.eq_of_mem_replicate h1
          omega
    rw [hkey, hW, List.drop_succ_cons, List.drop_zero]
    rw [hashBytes_append_one]
    rw [appendStep_eq_appendByte (hashBytes_lt hWbytes) hb]

theorem fold_wf : ∀ (l : List Nat) (r : Rabin), WfWin r → (∀ b ∈ l, b < 256) →
    WfWin (List.foldl slideOp r l) := by
  intro l
  induction l with
  | nil => intro r h _; exact h
  | cons b t ih =>
    intro r h hb
    rw [List.foldl_cons]
    exact ih _ (slideOp_wf h (hb b (by simp))) (fun x hx => hb x (by simp [hx]))

theorem mkRabin_windowList (mn mx : Nat) :
    windowList (mkRabin mn mx) = List.replicate winSize 0 := by
  unfold windowList mkRabin
  rw [List.map_const']
  simp

theorem mkRabin_wf (mn mx : Nat) : WfWin (mkRabin mn mx) := by
  refine ⟨by show (0 : Nat) < winSize; decide, fun i => by simp [mkRabin], ?_⟩
  rw [mkRabin_windowList, hashBytes_replicate_zero]
  rfl

/-- C7: fingerprint invariant of the sliding window.  From a freshly
constructed chunker, after any sequence of at least winSize = 64 slide
operations the digest equals the polynomial remainder, modulo the
default polynomial, of the polynomial formed by the last 64 bytes slid,
fed byte-by-byte in stream order (hashBytes); hence the digest depends
only on the current window contents. -/
theorem c7_digest_is_window_hash (l : List Nat) (mn mx : Nat)
    (hlen : winSize ≤ l.length) (hbytes : ∀ b ∈ l, b < 256) :
    (l.foldl slideOp (mkRabin mn mx)).digest =
      hashBytes (l.drop (l.length - winSize)) := by
  obtain ⟨_, _, hdig⟩ := fold_wf l (mkRabin mn mx) (mkRabin_wf mn mx) hbytes
  rw [hdig]
  congr 1
  rw [fold_windowList l _ (by show (0 : Nat) < winSize; decide), mkRabin_windowList]
  have hsplit : l.length = (List.replicate winSize (0 : Nat)).length + (l.length - winSize) := by
    rw [List.length_replicate]
    omega
  conv_lhs => rw [hsplit]
  rw [List.drop_append]

/-- Witness for C7 at a concrete input: 64 slides of the byte 5. -/
theorem c7_digest_is_window_hash_witness :
    (winSize ≤ (List.replicate 64 5).length ∧ ∀ b ∈ List.replicate 64 (5 : Nat), b < 256) ∧
    ((List.replicate 64 5).foldl slideOp (mkRabin 4 8)).digest =
      hashBytes ((List.replicate 64 5).drop ((List.replicate 64 5).length - winSize)) :=
  ⟨⟨by decide, by decide⟩,
    c7_digest_is_window_hash (List.replicate 64 5) 4 8 (by decide) (by decide)⟩

/-- C8: on an already-reduced digest D (deg D < deg defaultPoly) and a
byte b, the optimized table-based update appendStep — left shift by 8,
OR in b, XOR with modTable indexed by the top 8 bits — produces exactly
the reference appendByte(D, b, defaultPoly). -/
theorem c8_append_refines_appendByte (D b : Nat) (hD64 : D < 2 ^ 64)
    (hD : deg D < deg defaultPoly) (hb : b < 256) :
    appendStep D b = appendByte D b defaultPoly := by
  have h54 : bitLen defaultPoly = 54 := by decide
  have h1 : bitLen D < 54 := by
    unfold deg at hD
    omega
  rw [bitLen_eq_size hD64] at h1
  have h2 : D < 2 ^ 53 := Nat.size_le.mp (by omega)
  exact appendStep_eq_appendByte h2 hb

/-- Witness for C8 at a concrete input. -/
theorem c8_append_refines_appendByte_witness :
    ((12345 : Nat) < 2 ^ 64 ∧ deg 12345 < deg defaultPoly ∧ (200 : Nat) < 256) ∧
    appendStep 12345 200 = appendByte 12345 200 defaultPoly :=
  ⟨⟨by decide, by decide, by decide⟩,
    c8_append_refines_appendByte 12345 200 (by decide) (by decide) (by decide)⟩

/- ### The staging buffer and the Next state machine -/

/-- The slice buf[a:b] of the staging array, as a list. -/
def bufSlice (buf : Nat → Nat) (a b : Nat) : List Nat :=
  (List.range (b - a)).map (fun i => buf (a + i))

/-- Overwrite the front of the staging array with the bytes just read. -/
def writeList (buf : Nat → Nat) (l : List Nat) : Nat → Nat :=
  fun i => if i < l.length then l.getD i 0 else buf i

/-- io.ReadFull against the modelled source: deliver bufSize bytes when
available; otherwise deliver the remaining bytes and report the terminal
condition — io.EOF on an empty end of stream, io.ErrUnexpectedEOF on a
short read at end of stream, and any other error as itself. -/
def readFull (s : Source) : List Nat × Option Err × Source :=
  if bufSize ≤ s.data.length then
    (s.data.take bufSize, none, ⟨s.data.drop bufSize, s.fin⟩)
  else
    (s.data,
      some (if s.fin = Err.eof ∧ s.data.length ≠ 0 then Err.unexpectedEof else s.fin),
      ⟨[], s.fin⟩)

/-- updateBuf from rabin.go: on a latched error, report no data without
touching the source; otherwise move buf[start:bpos] into lastChunk,
reset the cursors, issue one ReadFull (counted in reads), normalize
io.ErrUnexpectedEOF to io.EOF, and report whether any data arrived. -/
def updateBuf (r : Rabin) : Bool × Rabin :=
  if r.err ≠ none then (false, r)
  else
    let r1 := { r with lastChunk := r.lastChunk ++ bufSlice r.buf r.start r.bpos,
                       bpos := 0, endp := 0, start := 0 }
    let t := readFull r1.src
    let r2 := { r1 with buf := writeList r1.buf t.1,
                        endp := t.1.length,
                        err := match t.2.1 with
                               | some Err.unexpectedEof => some Err.eof
                               | e => e,
                        src := t.2.2,
                        reads := r1.reads + 1 }
    (decide (r2.endp ≠ 0), r2)

/-- chunk from rabin.go: materialize lastChunk ++ buf[start:bpos] and
return it with the current digest as cut, with the nil error. -/
def chunkFn (r : Rabin) : (Option Chunk × Option Err) × Rabin :=
  let d := r.lastChunk ++ bufSlice r.buf r.start r.bpos
  ((some ⟨r.digest, d⟩, none), { r with lastChunk := d })

/-- chomp from rabin.go: emit the chunk when the latched condition is
absent or end of stream; surface any other error with no chunk. -/
def chomp (r : Rabin) : (Option Chunk × Option Err) × Rabin :=
  if r.err = none ∨ r.err = some Err.eof then chunkFn r
  else ((none, r.err), r)

/-- Read buf[bpos].  The Go code indexes the staging array directly; the
model additionally latches oob when the index is not covered by the
current fill (bpos >= end), which never affects the value read. -/
def bufGet (r : Rabin) : Nat × Rabin :=
  (r.buf r.bpos, if r.bpos < r.endp then r else { r with oob := true })

/-- The second loop of Next (rabin.go lines 142-151), with fuel equal to
max + 1 - count, the remaining iteration count of the Go loop; fuel 0 is
the loop exit, returning the chunk (line 153). -/
def searchLoop : Rabin → Nat → Nat → (Option Chunk × Option Err) × Rabin
  | r, _, 0 => chunkFn r
  | r, count, fuel + 1 =>
      let g := bufGet r
      let r1 := slideOp g.2 g.1
      let r2 := { r1 with bpos := r1.bpos + 1 }
      if r2.digest &&& mask = 0 ∨ count = r2.max then chunkFn r2
      else if r2.bpos = r2.endp then
        let u := updateBuf r2
        if u.1 then searchLoop u.2 (count + 1) fuel else chomp u.2
      else searchLoop r2 (count + 1) fuel

/-- Lines 138-140 of rabin.go, between the two loops, with Go
short-circuit evaluation made explicit. -/
def afterMin (r : Rabin) (count : Nat) : (Option Chunk × Option Err) × Rabin :=
  if r.digest &&& mask = 0 then chunkFn r
  else if r.bpos = r.endp then
    let u := updateBuf r
    if u.1 then searchLoop u.2 count (u.2.max + 1 - count)
    else if u.2.err = some Err.eof then chunkFn u.2
    else searchLoop u.2 count (u.2.max + 1 - count)
  else searchLoop r count (r.max + 1 - count)

/-- The first loop of Next (rabin.go lines 127-136), with fuel equal to
min + 1 - count; fuel 0 is the loop exit into the boundary check. -/
def minLoop : Rabin → Nat → Nat → (Option Chunk × Option Err) × Rabin
  | r, count, 0 => afterMin r count
  | r, count, fuel + 1 =>
      let g := bufGet r
      let r1 := slideOp g.2 g.1
      let r2 := { r1 with bpos := r1.bpos + 1 }
      if r2.bpos = r2.endp ∧ count < r2.min then
        let u := updateBuf r2
        if u.1 then minLoop u.2 (count + 1) fuel else chomp u.2
      else minLoop r2 (count + 1) fuel

/-- Next from rabin.go.  The caller-provided buffer becomes the initial
(emptied) lastChunk buf[:0]; Go slice aliasing and allocation behaviour
is outside the model, chunk data is tracked by value. -/
def next (r : Rabin) (buf : List Nat) : (Option Chunk × Option Err) × Rabin :=
  if r.endp = 0 ∨ r.bpos = r.endp then
    let u := updateBuf r
    if u.1 then
      let r1 := { u.2 with start := u.2.bpos, lastChunk := buf.take 0 }
      minLoop r1 1 r1.min
    else ((none, u.2.err), u.2)
  else
    let r1 := { r with start := r.bpos, lastChunk := buf.take 0 }
    minLoop r1 1 r1.min

/-- Repeated Next calls (with a nil caller buffer), collecting the data
of each returned chunk, stopping at the first error or when fuel runs
out. -/
def drive : Rabin → Nat → List (List Nat) × Option Err × Rabin
  | r, 0 => ([], none, r)
  | r, fuel + 1 =>
      match next r [] with
      | ((some c, _), r1) =>
          let t := drive r1 fuel
          (c.data :: t.1, t.2.1, t.2.2)
      | ((none, e), r1) => ([], e, r1)

/-- The state after n further Next calls. -/
def nextN (r : Rabin) : Nat → Rabin
  | 0 => r
  | n + 1 => nextN (next r []).2 n

theorem bufSlice_nil (buf : Nat → Nat) (a : Nat) : bufSlice buf a a = [] := by
  unfold bufSlice
  simp

theorem bufSlice_nil_of_le (buf : Nat → Nat) {a b : Nat} (h : b ≤ a) :
    bufSlice buf a b = [] := by
  unfold bufSlice
  have h1 : b - a = 0 := by omega
  rw [h1]
  simp

theorem bufSlice_succ_right (buf : Nat → Nat) {a b : Nat} (h : a ≤ b) :
    bufSlice buf a (b + 1) = bufSlice buf a b ++ [buf b] := by
  unfold bufSlice
  have h1 : b + 1 - a = (b - a) + 1 := by omega
  rw [h1, List.range_succ, List.map_append]
  have h2 : a + (b - a) = b := by omega
  simp [h2]

theorem bufSlice_cons_left (buf : Nat → Nat) {a b : Nat} (h : a < b) :
    bufSlice buf a b = buf a :: bufSlice buf (a + 1) b := by
  unfold bufSlice
  have h1 : b - a = (b - (a + 1)) + 1 := by omega
  rw [h1, List.range_succ_eq_map, List.map_cons, List.map_map]
  congr 1
  apply List.map_congr_left
  intro i _
  show buf (a + (i + 1)) = buf (a + 1 + i)
  congr 1
  omega

theorem bufSlice_writeList (buf : Nat → Nat) (l : List Nat) :
    bufSlice (writeList buf l) 0 l.length = l := by
  unfold bufSlice writeList
  apply List.ext_getElem
  · simp
  · intro j h1 h2
    simp only [List.getElem_map, List.getElem_range, Nat.zero_add, Nat.sub_zero] at h1 ⊢
    have hj : j < l.length := by simpa using h1
    rw [if_pos hj, List.getD_eq_getElem l 0 hj]

theorem updateBuf_latched {r : Rabin} (h : r.err ≠ none) : updateBuf r = (false, r) := by
  unfold updateBuf
  rw [if_pos h]

/-- All the fields of the state after an updateBuf issued with no
latched error. -/
theorem updateBuf_open {r : Rabin} (h : r.err = none) :
    (updateBuf r).2.bpos = 0 ∧ (updateBuf r).2.start = 0 ∧
    (updateBuf r).2.lastChunk = r.lastChunk ++ bufSlice r.buf r.start r.bpos ∧
    (updateBuf r).2.min = r.min ∧ (updateBuf r).2.max = r.max ∧
    (updateBuf r).2.digest = r.digest ∧
    (updateBuf r).2.window = r.window ∧ (updateBuf r).2.wpos = r.wpos ∧
    (updateBuf r).2.oob = r.oob ∧
    (updateBuf r).2.endp = (readFull r.src).1.length ∧
    bufSlice (updateBuf r).2.buf 0 (updateBuf r).2.endp = (readFull r.src).1 ∧
    (updateBuf r).2.src = (readFull r.src).2.2 ∧
    (updateBuf r).2.err = (match (readFull r.src).2.1 with
                           | some Err.unexpectedEof => some Err.eof
                           | e => e) ∧
    (updateBuf r).2.reads = r.reads + 1 ∧
    ((updateBuf r).1 = true ↔ (updateBuf r).2.endp ≠ 0) := by
  unfold updateBuf
  rw [if_neg (by simp [h])]
  refine ⟨rfl, rfl, rfl, rfl, rfl, rfl, rfl, rfl, rfl, rfl, ?_, rfl, rfl, rfl, ?_⟩
  · exact bufSlice_writeList _ _
  · simp

/-- A state is terminal-ready when the staging buffer is empty or fully
consumed, so the next call goes straight to updateBuf. -/
def Terminal (r : Rabin) : Prop := r.endp = 0 ∨ r.bpos = r.endp

/-- Every return of Next is either a chunk with the nil error, or no
chunk with an error that is latched in a terminal-ready state. -/
def GoodOut (out : (Option Chunk × Option Err) × Rabin) : Prop :=
  (∃ c, out.1 = (some c, none)) ∨
  (∃ e, out.1 = (none, some e) ∧ out.2.err = some e ∧ Terminal out.2)

theorem chunkFn_good (r : Rabin) : GoodOut (chunkFn r) := Or.inl ⟨_, rfl⟩

theorem readFull_long {s : Source} (h : bufSize ≤ s.data.length) :
    readFull s = (s.data.take bufSize, none, ⟨s.data.drop bufSize, s.fin⟩) := by
  unfold readFull
  rw [if_pos h]

theorem readFull_short {s : Source} (h : s.data.length < bufSize) :
    readFull s = (s.data,
      some (if s.fin = Err.eof ∧ s.data.length ≠ 0 then Err.unexpectedEof else s.fin),
      ⟨[], s.fin⟩) := by
  unfold readFull
  rw [if_neg (by omega)]

theorem bufSize_pos : 0 < bufSize := by decide

theorem updateBuf_false_facts {r : Rabin} (hf : (updateBuf r).1 = false) :
    (updateBuf r).2.err ≠ none ∧
      ((updateBuf r).2 = r ∨ ((updateBuf r).2.endp = 0 ∧ (updateBuf r).2.bpos = 0)) := by
  by_cases h : r.err = none
  · obtain ⟨hb, _, _, _, _, _, _, _, _, hend, _, _, herr, _, hiff⟩ := updateBuf_open h
    have hend0 : (updateBuf r).2.endp = 0 := by
      by_contra hc
      rw [hiff.mpr hc] at hf
      simp at hf
    refine ⟨?_, Or.inr ⟨hend0, hb⟩⟩
    rw [herr]
    rw [hend] at hend0
    rcases Nat.lt_or_ge r.src.data.length bufSize with hlen | hlen
    · rw [readFull_short hlen] at hend0 ⊢
      simp only [] at hend0 ⊢
      have hdata : r.src.data = [] := List.length_eq_zero.mp hend0
      cases hfin : r.src.fin <;> simp [hfin, hdata]
    · rw [readFull_long hlen] at hend0
      rw [List.length_take] at hend0
      have := bufSize_pos
      omega
  · have h2 : r.err ≠ none := h
    rw [updateBuf_latched h2]
    exact ⟨h2, Or.inl rfl⟩

theorem chomp_good {r : Rabin} (ht : Terminal r) : GoodOut (chomp r) := by
  unfold chomp
  by_cases h : r.err = none ∨ r.err = some Err.eof
  · rw [if_pos h]
    exact chunkFn_good r
  · rw [if_neg h]
    cases herr : r.err with
    | none => rw [herr] at h; simp at h
    | some e => exact Or.inr ⟨e, rfl, herr, ht⟩

theorem updateBuf_true_bpos {r : Rabin} (hu : (updateBuf r).1 = true) :
    (updateBuf r).2.bpos = 0 ∧ (updateBuf r).2.endp ≠ 0 := by
  by_cases h : r.err = none
  · obtain ⟨hb, _, _, _, _, _, _, _, _, _, _, _, _, _, hiff⟩ := updateBuf_open h
    exact ⟨hb, hiff.mp hu⟩
  · rw [updateBuf_latched h] at hu
    simp at hu

theorem searchLoop_good : ∀ (fuel : Nat) (count : Nat) (r : Rabin),
    GoodOut (searchLoop r count fuel) := by
  intro fuel
  induction fuel with
  | zero => intro count r; exact chunkFn_good r
  | succ f ih =>
    intro count r
    rw [searchLoop]
    set r2 : Rabin := { slideOp (bufGet r).2 (bufGet r).1 with
      bpos := (slideOp (bufGet r).2 (bufGet r).1).bpos + 1 } with hr2
    by_cases h1 : r2.digest &&& mask = 0 ∨ count = r2.max
    · rw [if_pos h1]
      exact chunkFn_good r2
    · rw [if_neg h1]
      by_cases h2 : r2.bpos = r2.endp
      · rw [if_pos h2]
        cases hu : (updateBuf r2).1 with
        | true => simp only [hu, if_true]; exact ih _ _
        | false =>
          simp only [hu, if_false]
          apply chomp_good
          obtain ⟨_, hcase⟩ := updateBuf_false_facts hu
          rcases hcase with hsame | ⟨hend, hbp⟩
          · rw [hsame]
            exact Or.inr h2
          · exact Or.inl hend
      · rw [if_neg h2]
        exact ih _ _

theorem afterMin_good (r : Rabin) (count : Nat) : GoodOut (afterMin r count) := by
  unfold afterMin
  by_cases h1 : r.digest &&& mask = 0
  · rw [if_pos h1]
    exact chunkFn_good r
  · rw [if_neg h1]
    by_cases h2 : r.bpos = r.endp
    · rw [if_pos h2]
      cases hu : (updateBuf r).1 with
      | true => simp only [hu, if_true]; exact searchLoop_good _ _ _
      | false =>
        simp only [hu, if_false]
        by_cases h3 : (updateBuf r).2.err = some Err.eof
        · rw [if_pos h3]
          exact chunkFn_good _
        · rw [if_neg h3]
          exact searchLoop_good _ _ _
    · rw [if_neg h2]
      exact searchLoop_good _ _ _

theorem minLoop_good : ∀ (fuel : Nat) (count : Nat) (r : Rabin),
    GoodOut (minLoop r count fuel) := by
  intro fuel
  induction fuel with
  | zero => intro count r; exact afterMin_good r count
  | succ f ih =>
    intro count r
    rw [minLoop]
    set r2 : Rabin := { slideOp (bufGet r).2 (bufGet r).1 with
      bpos := (slideOp (bufGet r).2 (bufGet r).1).bpos + 1 } with hr2
    by_cases h1 : r2.bpos = r2.endp ∧ count < r2.min
    · rw [if_pos h1]
      cases hu : (updateBuf r2).1 with
      | true => simp only [hu, if_true]; exact ih _ _
      | false =>
        simp only [hu, if_false]
        apply chomp_good
        obtain ⟨_, hcase⟩ := updateBuf_false_facts hu
        rcases hcase with hsame | ⟨hend, hbp⟩
        · rw [hsame]
          exact Or.inr h1.1
        · exact Or.inl hend
    · rw [if_neg h1]
      exact ih _ _

theorem next_good (r : Rabin) (buf : List Nat) : GoodOut (next r buf) := by
  unfold next
  by_cases h1 : r.endp = 0 ∨ r.bpos = r.endp
  · rw [if_pos h1]
    cases hu : (updateBuf r).1 with
    | true => simp only [hu, if_true]; exact minLoop_good _ _ _
    | false =>
      simp only [hu, if_false]
      obtain ⟨herr, hcase⟩ := updateBuf_false_facts hu
      cases he : (updateBuf r).2.err with
      | none => exact absurd he herr
      | some e =>
        refine Or.inr ⟨e, by simp, he, ?_⟩
        rcases hcase with hsame | ⟨hend, _⟩
        · rw [hsame]
          exact h1
        · exact Or.inl hend
  · rw [if_neg h1]
    exact minLoop_good _ _ _

/-- C9: a Next call returns a non-null chunk exactly when it returns the
nil error; on any error outcome, including end of stream, no chunk is
returned.  Holds for every state and caller buffer. -/
theorem c9_chunk_iff_nil_error (r : Rabin) (buf : List Nat) :
    (next r buf).1.1.isSome ↔ (next r buf).1.2 = none := by
  rcases next_good r buf with ⟨c, hc⟩ | ⟨e, he, _, _⟩
  · simp [hc]
  · simp [he]

/-- A Next call on a state with a latched error and an empty or consumed
staging buffer returns that error with no chunk and does not change the
state at all (in particular it issues no read). -/
theorem next_latched {r : Rabin} {e : Err} (he : r.err = some e) (ht : Terminal r)
    (buf : List Nat) : next r buf = ((none, some e), r) := by
  have ht2 : r.endp = 0 ∨ r.bpos = r.endp := ht
  unfold next
  rw [if_pos ht2, updateBuf_latched (by rw [he]; simp)]
  simp [he]

/-- C4: once a Next call has surfaced a terminal signal (no chunk, an
error), every later Next call returns that same error with no chunk, the
state never changes again, and no further read is issued to the source
(the read counter stays put). -/
theorem c4_terminal_latch (s : Rabin) (buf : List Nat) (e : Err) (s1 : Rabin)
    (h : next s buf = ((none, some e), s1)) :
    ∀ n, nextN s1 n = s1 ∧ next (nextN s1 n) [] = ((none, some e), s1) ∧
      (nextN s1 n).reads = s1.reads := by
  rcases next_good s buf with ⟨c, hc⟩ | ⟨e2, he2, herr, hterm⟩
  · rw [h] at hc
    simp at hc
  · rw [h] at he2 herr hterm
    have hee : e2 = e := by
      simp at he2
      exact he2.symm
    subst hee
    have hst : ∀ n, nextN s1 n = s1 := by
      intro n
      induction n with
      | zero => rfl
      | succ n ih =>
        show nextN (next s1 []).2 n = s1
        rw [next_latched herr hterm]
        exact ih
    intro n
    refine ⟨hst n, ?_, by rw [hst n]⟩
    rw [hst n]
    exact next_latched herr hterm []

/-- Witness for C4: an empty source surfaces end of stream on the first
call; three further calls return the same error with an unchanged state. -/
theorem c4_terminal_latch_witness :
    next (reset (mkRabin 2 4) ⟨[], Err.eof⟩) [] =
      ((none, some Err.eof), (next (reset (mkRabin 2 4) ⟨[], Err.eof⟩) []).2) ∧
    (nextN (next (reset (mkRabin 2 4) ⟨[], Err.eof⟩) []).2 3 =
        (next (reset (mkRabin 2 4) ⟨[], Err.eof⟩) []).2 ∧
      next (nextN (next (reset (mkRabin 2 4) ⟨[], Err.eof⟩) []).2 3) [] =
        ((none, some Err.eof), (next (reset (mkRabin 2 4) ⟨[], Err.eof⟩) []).2) ∧
      (nextN (next (reset (mkRabin 2 4) ⟨[], Err.eof⟩) []).2 3).reads =
        (next (reset (mkRabin 2 4) ⟨[], Err.eof⟩) []).2.reads) := by
  have h : next (reset (mkRabin 2 4) ⟨[], Err.eof⟩) [] =
      ((none, some Err.eof), (next (reset (mkRabin 2 4) ⟨[], Err.eof⟩) []).2) :=
    Prod.ext_iff.mpr ⟨by decide, rfl⟩
  exact ⟨h, c4_terminal_latch _ [] Err.eof _ h 3⟩

set_option maxRecDepth 100000 in
/-- C5 failing evaluation: with min = 4, max = 8 and a source that
delivers 4 bytes and then a hard read error, the error arrives while
only a partial chunk is consumed (no boundary found, max not reached);
Next nevertheless returns a chunk with the nil error, and the chunk even
contains 4 trailing bytes the source never delivered (stale staging
bytes slid after the failed refill at the min-phase boundary,
rabin.go line 138 falling through to the search loop). -/
theorem c5_partial_chunk_on_hard_error :
    (next (reset (mkRabin 4 8) ⟨[1, 1, 1, 1], Err.hard 0⟩) []).1.2 = none ∧
    (next (reset (mkRabin 4 8) ⟨[1, 1, 1, 1], Err.hard 0⟩) []).1.1.map Chunk.data =
      some [1, 1, 1, 1, 0, 0, 0, 0] := by
  exact ⟨by decide, by decide⟩

set_option maxRecDepth 100000 in
/-- C10 failing evaluation: on the same input as C5, Next reads the
staging buffer at indices bpos = 4..7 although only end = 4 bytes were
filled; the instrumented out-of-bounds flag is raised. -/
theorem c10_staging_read_out_of_bounds :
    (next (reset (mkRabin 4 8) ⟨[1, 1, 1, 1], Err.hard 0⟩) []).2.oob = true := by
  decide

set_option maxRecDepth 100000 in
/-- C6 counterexample: run a chunker to end of stream, then Reset it
onto a fresh two-byte source.  The following Next call returns the stale
latched io.EOF without reading the newly bound source (the read counter
does not move), and neither wpos nor the digest are zero after Reset. -/
theorem c6_reset_counterexample :
    (next (reset (nextN (reset (mkRabin 1 2) ⟨[5], Err.eof⟩) 2) ⟨[7, 8], Err.eof⟩) []).1 =
      (none, some Err.eof) ∧
    (next (reset (nextN (reset (mkRabin 1 2) ⟨[5], Err.eof⟩) 2) ⟨[7, 8], Err.eof⟩) []).2.reads =
      (reset (nextN (reset (mkRabin 1 2) ⟨[5], Err.eof⟩) 2) ⟨[7, 8], Err.eof⟩).reads ∧
    (reset (nextN (reset (mkRabin 1 2) ⟨[5], Err.eof⟩) 2) ⟨[7, 8], Err.eof⟩).wpos ≠ 0 ∧
    (reset (nextN (reset (mkRabin 1 2) ⟨[5], Err.eof⟩) 2) ⟨[7, 8], Err.eof⟩).digest ≠ 0 := by
  refine ⟨by decide, by decide, by decide, by decide⟩

/-- C6 amended: Reset rebinds the source and zeroes digest, bpos and
end, then slides the sentinel byte 1 — so afterwards wpos has advanced
and the digest reflects the sentinel — but it clears neither a latched
terminal error nor the window contents nor wpos.  On a chunker with a
latched terminal error, the Next call following Reset returns that
latched error with no chunk, leaves the state unchanged and issues no
read to the newly bound source.  Reset itself is total and always
succeeds. -/
theorem c6_reset_amended (r : Rabin) (s : Source) (buf : List Nat) :
    (reset r s).src = s ∧ (reset r s).err = r.err ∧ (reset r s).bpos = 0 ∧
    (reset r s).endp = 0 ∧ (reset r s).wpos = (r.wpos + 1) % winSize ∧
    (reset r s).reads = r.reads ∧
    ∀ e, r.err = some e → next (reset r s) buf = ((none, some e), reset r s) := by
  refine ⟨rfl, rfl, rfl, rfl, rfl, rfl, ?_⟩
  intro e he
  apply next_latched
  · show (reset r s).err = some e
    rw [show (reset r s).err = r.err from rfl, he]
  · exact Or.inl rfl

set_option maxRecDepth 100000 in
/-- Witness for C6 amended, on a chunker previously run to end of
stream. -/
theorem c6_reset_amended_witness :
    (nextN (reset (mkRabin 1 2) ⟨[5], Err.eof⟩) 2).err = some Err.eof ∧
    next (reset (nextN (reset (mkRabin 1 2) ⟨[5], Err.eof⟩) 2) ⟨[9], Err.eof⟩) [] =
      ((none, some Err.eof), reset (nextN (reset (mkRabin 1 2) ⟨[5], Err.eof⟩) 2) ⟨[9], Err.eof⟩) :=
  ⟨by decide,
    (c6_reset_amended (nextN (reset (mkRabin 1 2) ⟨[5], Err.eof⟩) 2) ⟨[9], Err.eof⟩ []).2.2.2.2.2.2
      Err.eof (by decide)⟩

/- ### Stream bookkeeping for end-of-stream sources -/

/-- Bytes filled into the staging buffer but not yet consumed. -/
def bufRest (r : Rabin) : List Nat := bufSlice r.buf r.bpos r.endp

/-- All bytes of the stream not yet consumed into any chunk: the unread
part of the staging buffer followed by what the source still holds. -/
def totalRest (r : Rabin) : List Nat := bufRest r ++ r.src.data

/-- The bytes consumed for the chunk currently under construction. -/
def thisChunk (r : Rabin) : List Nat := r.lastChunk ++ bufSlice r.buf r.start r.bpos

/-- Invariant of a chunker bound to a source that terminates with end of
stream and delivers no read errors. -/
def EofInv (r : Rabin) : Prop :=
  r.bpos ≤ r.endp ∧ r.src.fin = Err.eof ∧
  (r.err = none ∨ r.err = some Err.eof) ∧
  (r.err = some Err.eof → r.src.data = [])

theorem slideOp_buf (r : Rabin) (b : Nat) : (slideOp r b).buf = r.buf := rfl

theorem slideOp_fields (r : Rabin) (b : Nat) :
    (slideOp r b).buf = r.buf ∧ (slideOp r b).bpos = r.bpos ∧
    (slideOp r b).start = r.start ∧ (slideOp r b).endp = r.endp ∧
    (slideOp r b).src = r.src ∧ (slideOp r b).err = r.err ∧
    (slideOp r b).lastChunk = r.lastChunk ∧ (slideOp r b).min = r.min ∧
    (slideOp r b).max = r.max ∧ (slideOp r b).reads = r.reads :=
  ⟨rfl, rfl, rfl, rfl, rfl, rfl, rfl, rfl, rfl, rfl⟩

theorem bufGet_lt {r : Rabin} (h : r.bpos < r.endp) : bufGet r = (r.buf r.bpos, r) := by
  unfold bufGet
  rw [if_pos h]

theorem bufRest_nil {r : Rabin} (h : r.bpos = r.endp ∨ r.endp = 0) (hb : r.bpos ≤ r.endp) :
    bufRest r = [] := by
  unfold bufRest
  apply bufSlice_nil_of_le
  omega

/-- updateBuf called with no latched error on a fully consumed staging
buffer, against an end-of-stream source: all bookkeeping facts. -/
theorem updateBuf_inv {r : Rabin} (hInv : EofInv r) (hbr : r.bpos = r.endp ∨ r.endp = 0)
    (he : r.err = none) :
    EofInv (updateBuf r).2 ∧ (updateBuf r).2.min = r.min ∧ (updateBuf r).2.max = r.max ∧
    (updateBuf r).2.digest = r.digest ∧
    thisChunk (updateBuf r).2 = thisChunk r ∧ totalRest (updateBuf r).2 = totalRest r ∧
    (updateBuf r).2.start = 0 ∧ (updateBuf r).2.bpos = 0 ∧
    ((updateBuf r).1 = false → (updateBuf r).2.err = some Err.eof ∧
      totalRest (updateBuf r).2 = [] ∧ Terminal (updateBuf r).2) ∧
    ((updateBuf r).1 = true → (updateBuf r).2.bpos < (updateBuf r).2.endp) := by
  obtain ⟨hble, hfin, _, _⟩ := hInv
  obtain ⟨hb, hst, hlc, hmin, hmax, hdig, _, _, _, hend, hslice, hsrc, herr, _, hiff⟩ :=
    updateBuf_open he
  have hrest0 : bufRest r = [] := bufRest_nil hbr hble
  have htc : thisChunk (updateBuf r).2 = thisChunk r := by
    unfold thisChunk
    rw [hlc, hst, hb, bufSlice_nil, List.append_nil]
  have htr : totalRest (updateBuf r).2 = r.src.data := by
    unfold totalRest bufRest
    rw [hb, hslice, hsrc]
    rcases Nat.lt_or_ge r.src.data.length bufSize with hlen | hlen
    · rw [readFull_short hlen]
      simp
    · rw [readFull_long hlen]
      simp only []
      exact List.take_append_drop bufSize r.src.data
  have htr2 : totalRest (updateBuf r).2 = totalRest r := by
    rw [htr]
    unfold totalRest
    rw [hrest0, List.nil_append]
  have herr2 : (updateBuf r).2.err = none ∨ (updateBuf r).2.err = some Err.eof := by
    rw [herr]
    rcases Nat.lt_or_ge r.src.data.length bufSize with hlen | hlen
    · rw [readFull_short hlen]
      simp only [hfin]
      by_cases hd : r.src.data.length ≠ 0 <;> simp [hd]
    · rw [readFull_long hlen]
      simp
  have hsrc2 : (updateBuf r).2.err = some Err.eof → (updateBuf r).2.src.data = [] := by
    intro hee
    rw [hsrc]
    rcases Nat.lt_or_ge r.src.data.length bufSize with hlen | hlen
    · rw [readFull_short hlen]
    · rw [herr, readFull_long hlen] at hee
      simp at hee
  have hInv2 : EofInv (updateBuf r).2 := by
    refine ⟨by rw [hb]; omega, ?_, herr2, hsrc2⟩
    rw [hsrc]
    rcases Nat.lt_or_ge r.src.data.length bufSize with hlen | hlen
    · rw [readFull_short hlen]
      exact hfin
    · rw [readFull_long hlen]
      exact hfin
  refine ⟨hInv2, hmin, hmax, hdig, htc, htr2, hst, hb, ?_, ?_⟩
  · intro hf
    obtain ⟨herrne, hcase⟩ := updateBuf_false_facts hf
    have heof : (updateBuf r).2.err = some Err.eof := by
      rcases herr2 with h1 | h1
      · exact absurd h1 herrne
      · exact h1
    have hne : ¬ (updateBuf r).1 = true := by rw [hf]; simp
    have hend0 : (updateBuf r).2.endp = 0 := by
      by_contra hc
      exact hne (hiff.mpr hc)
    rw [hend] at hend0
    have hdata0 : r.src.data = [] := by
      rcases Nat.lt_or_ge r.src.data.length bufSize with hlen | hlen
      · rw [readFull_short hlen] at hend0
        simp only [] at hend0
        exact List.length_eq_zero.mp hend0
      · rw [readFull_long hlen] at hend0
        rw [List.length_take] at hend0
        have := bufSize_pos
        omega
    refine ⟨heof, ?_, ?_⟩
    · rw [htr]
      exact hdata0
    · rcases hcase with hsame | ⟨hend0, _⟩
      · right
        rw [hsame]
        omega
      · exact Or.inl hend0
  · intro ht
    rw [hb]
    have := (hiff.mp ht)
    omega

theorem chunkFn_spec (r : Rabin) :
    chunkFn r = ((some ⟨r.digest, thisChunk r⟩, none), { r with lastChunk := thisChunk r }) :=
  rfl

theorem step_state (r : Rabin) (b : Nat) (hlt : r.bpos < r.endp) (hst : r.start ≤ r.bpos)
    (hInv : EofInv r) :
    EofInv { slideOp r b with bpos := (slideOp r b).bpos + 1 } ∧
    ({ slideOp r b with bpos := (slideOp r b).bpos + 1 } : Rabin).bpos = r.bpos + 1 ∧
    ({ slideOp r b with bpos := (slideOp r b).bpos + 1 } : Rabin).endp = r.endp ∧
    ({ slideOp r b with bpos := (slideOp r b).bpos + 1 } : Rabin).start = r.start ∧
    ({ slideOp r b with bpos := (slideOp r b).bpos + 1 } : Rabin).min = r.min ∧
    ({ slideOp r b with bpos := (slideOp r b).bpos + 1 } : Rabin).max = r.max ∧
    ({ slideOp r b with bpos := (slideOp r b).bpos + 1 } : Rabin).err = r.err ∧
    ({ slideOp r b with bpos := (slideOp r b).bpos + 1 } : Rabin).src = r.src ∧
    thisChunk { slideOp r b with bpos := (slideOp r b).bpos + 1 } =
      thisChunk r ++ [r.buf r.bpos] ∧
    thisChunk { slideOp r b with bpos := (slideOp r b).bpos + 1 } ++
        totalRest { slideOp r b with bpos := (slideOp r b).bpos + 1 } =
      thisChunk r ++ totalRest r := by
  obtain ⟨hble, hfin, herr, hsrc⟩ := hInv
  have htc : thisChunk { slideOp r b with bpos := (slideOp r b).bpos + 1 } =
      thisChunk r ++ [r.buf r.bpos] := by
    unfold thisChunk
    show r.lastChunk ++ bufSlice r.buf r.start (r.bpos + 1) =
      r.lastChunk ++ bufSlice r.buf r.start r.bpos ++ [r.buf r.bpos]
    rw [bufSlice_succ_right r.buf hst, List.append_assoc]
  refine ⟨⟨by show r.bpos + 1 ≤ r.endp; omega, hfin, herr, hsrc⟩,
    rfl, rfl, rfl, rfl, rfl, rfl, rfl, htc, ?_⟩
  rw [htc]
  unfold totalRest bufRest
  show thisChunk r ++ [r.buf r.bpos] ++ (bufSlice r.buf (r.bpos + 1) r.endp ++ r.src.data) =
    thisChunk r ++ (bufSlice r.buf r.bpos r.endp ++ r.src.data)
  rw [bufSlice_cons_left r.buf hlt]
  simp [List.append_assoc]

theorem lastChunk_set_facts (r : Rabin) (X : List Nat) (h : EofInv r) :
    EofInv ({ r with lastChunk := X } : Rabin) ∧
    totalRest ({ r with lastChunk := X } : Rabin) = totalRest r := ⟨h, rfl⟩

theorem searchLoop_spec : ∀ (fuel count : Nat) (r : Rabin), EofInv r → r.start ≤ r.bpos →
    (fuel = 0 ∨ r.bpos < r.endp) → count + fuel = r.max + 1 → 1 ≤ count →
    (thisChunk r).length = count - 1 →
    ∃ c s1, searchLoop r count fuel = ((some c, none), s1) ∧ EofInv s1 ∧
      s1.min = r.min ∧ s1.max = r.max ∧
      c.data ++ totalRest s1 = thisChunk r ++ totalRest r ∧
      count - 1 ≤ c.data.length ∧ c.data.length ≤ r.max ∧
      (c.cut &&& mask = 0 ∨ c.data.length = r.max ∨
        (s1.err = some Err.eof ∧ Terminal s1 ∧ totalRest s1 = [])) := by
  intro fuel
  induction fuel with
  | zero =>
    intro count r hInv hst _ hcf h1c hlen
    refine ⟨⟨r.digest, thisChunk r⟩, { r with lastChunk := thisChunk r },
      chunkFn_spec r, hInv, rfl, rfl, rfl,
      by show count - 1 ≤ (thisChunk r).length; omega,
      by show (thisChunk r).length ≤ r.max; omega, ?_⟩
    right; left
    show (thisChunk r).length = r.max
    omega
  | succ f ih =>
    intro count r hInv hst hbp hcf h1c hlen
    have hlt : r.bpos < r.endp := by
      rcases hbp with h | h
      · omega
      · exact h
    rw [searchLoop, bufGet_lt hlt]
    simp only []
    obtain ⟨hInv2, hbpos2, hendp2, hstart2, hmin2, hmax2, herr2, hsrc2, htc2, hcons2⟩ :=
      step_state r (r.buf r.bpos) hlt hst hInv
    set s2 : Rabin := { slideOp r (r.buf r.bpos) with
      bpos := (slideOp r (r.buf r.bpos)).bpos + 1 } with hs2
    have hlen2 : (thisChunk s2).length = count := by
      rw [htc2]
      simp [hlen]
      omega
    by_cases h1 : s2.digest &&& mask = 0 ∨ count = s2.max
    · rw [if_pos h1]
      refine ⟨⟨s2.digest, thisChunk s2⟩, { s2 with lastChunk := thisChunk s2 },
        chunkFn_spec s2, hInv2, hmin2, hmax2,
        by show thisChunk s2 ++ totalRest s2 = thisChunk r ++ totalRest r; exact hcons2,
        by show count - 1 ≤ (thisChunk s2).length; omega,
        by show (thisChunk s2).length ≤ r.max; omega, ?_⟩
      rcases h1 with h | h
      · exact Or.inl h
      · right; left
        show (thisChunk s2).length = r.max
        rw [hlen2, h, hmax2]
    · rw [if_neg h1]
      have hcmax : count ≤ r.max := by omega
      by_cases h2 : s2.bpos = s2.endp
      · rw [if_pos h2]
        rcases hInv2.2.2.1 with herrn | herre
        · obtain ⟨hInv3, hmin3, hmax3, _, htc3, htr3, hstart3, hbpos3, hfalse3, htrue3⟩ :=
            updateBuf_inv hInv2 (Or.inl h2) herrn
          cases hu : (updateBuf s2).1 with
          | true =>
            simp only [hu, if_true]
            obtain ⟨c, s1, heq, hI, hm1, hm2, hcons, hlb, hub, hbd⟩ :=
              ih (count + 1) (updateBuf s2).2 hInv3 (by omega)
                (Or.inr (htrue3 hu)) (by omega) (by omega) (by rw [htc3, hlen2]; omega)
            refine ⟨c, s1, heq, hI, by rw [hm1, hmin3, hmin2],
              by rw [hm2, hmax3, hmax2], ?_, by omega,
              by rw [hmax3, hmax2] at hub; exact hub, ?_⟩
            · rw [hcons, htc3, htr3, hcons2]
            · rcases hbd with h | h | h
              · exact Or.inl h
              · right; left
                rw [h, hmax3, hmax2]
              · exact Or.inr (Or.inr h)
          | false =>
            simp only [hu, Bool.false_eq_true, if_false]
            obtain ⟨heof, htr0, hterm⟩ := hfalse3 hu
            unfold chomp
            rw [if_pos (Or.inr heof)]
            refine ⟨⟨(updateBuf s2).2.digest, thisChunk (updateBuf s2).2⟩,
              { (updateBuf s2).2 with lastChunk := thisChunk (updateBuf s2).2 },
              chunkFn_spec _, hInv3, by rw [hmin3, hmin2], by rw [hmax3, hmax2], ?_, ?_, ?_, ?_⟩
            · show thisChunk (updateBuf s2).2 ++ totalRest (updateBuf s2).2 =
                thisChunk r ++ totalRest r
              rw [htc3, htr3, hcons2]
            · show count - 1 ≤ (thisChunk (updateBuf s2).2).length
              rw [htc3, hlen2]
              omega
            · show (thisChunk (updateBuf s2).2).length ≤ r.max
              rw [htc3, hlen2]
              omega
            · right; right
              exact ⟨heof, hterm, htr0⟩
        · rw [updateBuf_latched (by rw [herre]; simp)]
          simp only [if_false]
          unfold chomp
          rw [if_pos (Or.inr herre)]
          have htr0 : totalRest s2 = [] := by
            unfold totalRest
            rw [bufRest_nil (Or.inl h2) hInv2.1, hInv2.2.2.2 herre]
            rfl
          refine ⟨⟨s2.digest, thisChunk s2⟩, { s2 with lastChunk := thisChunk s2 },
            chunkFn_spec s2, hInv2, hmin2, hmax2, ?_,
            by show count - 1 ≤ (thisChunk s2).length; omega, ?_, ?_⟩
          · show thisChunk s2 ++ totalRest s2 = thisChunk r ++ totalRest r
            exact hcons2
          · show (thisChunk s2).length ≤ r.max
            omega
          · right; right
            exact ⟨herre, Or.inr h2, htr0⟩
      · rw [if_neg h2]
        obtain ⟨c, s1, heq, hI, hm1, hm2, hcons, hlb, hub, hbd⟩ :=
          ih (count + 1) s2 hInv2 (by omega)
            (by right; omega) (by omega) (by omega) (by omega)
        refine ⟨c, s1, heq, hI, by rw [hm1, hmin2], by rw [hm2, hmax2],
          by rw [hcons, hcons2], by omega, by rw [hmax2] at hub; exact hub, ?_⟩
        rcases hbd with h | h | h
        · exact Or.inl h
        · right; left
          rw [h, hmax2]
        · exact Or.inr (Or.inr h)

theorem afterMin_spec (r : Rabin) (count : Nat) (hInv : EofInv r) (hst : r.start ≤ r.bpos)
    (hc : count = r.min + 1) (hmm : r.min ≤ r.max) (hlen : (thisChunk r).length = r.min) :
    ∃ c s1, afterMin r count = ((some c, none), s1) ∧ EofInv s1 ∧
      s1.min = r.min ∧ s1.max = r.max ∧
      c.data ++ totalRest s1 = thisChunk r ++ totalRest r ∧
      r.min ≤ c.data.length ∧ c.data.length ≤ r.max ∧
      (c.cut &&& mask = 0 ∨ c.data.length = r.max ∨
        (s1.err = some Err.eof ∧ Terminal s1 ∧ totalRest s1 = [])) := by
  unfold afterMin
  by_cases h1 : r.digest &&& mask = 0
  · rw [if_pos h1]
    refine ⟨⟨r.digest, thisChunk r⟩, { r with lastChunk := thisChunk r },
      chunkFn_spec r, hInv, rfl, rfl,
      by show thisChunk r ++ totalRest r = thisChunk r ++ totalRest r; rfl,
      by show r.min ≤ (thisChunk r).length; omega,
      by show (thisChunk r).length ≤ r.max; omega, Or.inl h1⟩
  · rw [if_neg h1]
    by_cases h2 : r.bpos = r.endp
    · rw [if_pos h2]
      rcases hInv.2.2.1 with herrn | herre
      · obtain ⟨hInv3, hmin3, hmax3, _, htc3, htr3, hstart3, hbpos3, hfalse3, htrue3⟩ :=
          updateBuf_inv hInv (Or.inl h2) herrn
        cases hu : (updateBuf r).1 with
        | true =>
          simp only [hu, if_true]
          obtain ⟨c, s1, heq, hI, hm1, hm2, hcons, hlb, hub, hbd⟩ :=
            searchLoop_spec ((updateBuf r).2.max + 1 - count) count (updateBuf r).2 hInv3
              (by omega) (Or.inr (htrue3 hu)) (by rw [hmax3]; omega) (by omega)
              (by rw [htc3, hlen]; omega)
          refine ⟨c, s1, heq, hI, by rw [hm1, hmin3], by rw [hm2, hmax3],
            by rw [hcons, htc3, htr3], by omega,
            by rw [hmax3] at hub; exact hub, ?_⟩
          rcases hbd with h | h | h
          · exact Or.inl h
          · right; left
            rw [h, hmax3]
          · exact Or.inr (Or.inr h)
        | false =>
          simp only [hu, Bool.false_eq_true, if_false]
          obtain ⟨heof, htr0, hterm⟩ := hfalse3 hu
          rw [if_pos heof]
          refine ⟨⟨(updateBuf r).2.digest, thisChunk (updateBuf r).2⟩,
            { (updateBuf r).2 with lastChunk := thisChunk (updateBuf r).2 },
            chunkFn_spec _, hInv3, hmin3, hmax3, ?_, ?_, ?_, ?_⟩
          · show thisChunk (updateBuf r).2 ++ totalRest (updateBuf r).2 =
              thisChunk r ++ totalRest r
            rw [htc3, htr3]
          · show r.min ≤ (thisChunk (updateBuf r).2).length
            rw [htc3, hlen]
          · show (thisChunk (updateBuf r).2).length ≤ r.max
            rw [htc3, hlen]
            omega
          · right; right
            exact ⟨heof, hterm, htr0⟩
      · rw [updateBuf_latched (by rw [herre]; simp)]
        simp only [Bool.false_eq_true, if_false]
        rw [if_pos herre]
        have htr0 : totalRest r = [] := by
          unfold totalRest
          rw [bufRest_nil (Or.inl h2) hInv.1, hInv.2.2.2 herre]
          rfl
        refine ⟨⟨r.digest, thisChunk r⟩, { r with lastChunk := thisChunk r },
          chunkFn_spec r, hInv, rfl, rfl,
          by show thisChunk r ++ totalRest r = thisChunk r ++ totalRest r; rfl,
          by show r.min ≤ (thisChunk r).length; omega,
          by show (thisChunk r).length ≤ r.max; omega, ?_⟩
        right; right
        exact ⟨herre, Or.inr h2, htr0⟩
    · rw [if_neg h2]
      obtain ⟨c, s1, heq, hI, hm1, hm2, hcons, hlb, hub, hbd⟩ :=
        searchLoop_spec (r.max + 1 - count) count r hInv hst
          (by right
              have hle := hInv.1
              omega)
          (by omega) (by omega) (by omega)
      exact ⟨c, s1, heq, hI, hm1, hm2, hcons, by omega, hub, hbd⟩

theorem minLoop_spec : ∀ (fuel count : Nat) (r : Rabin), EofInv r → r.start ≤ r.bpos →
    (fuel = 0 ∨ r.bpos < r.endp) → count + fuel = r.min + 1 → 1 ≤ count →
    1 ≤ r.min → r.min ≤ r.max →
    (thisChunk r).length = count - 1 →
    ∃ c s1, minLoop r count fuel = ((some c, none), s1) ∧ EofInv s1 ∧
      s1.min = r.min ∧ s1.max = r.max ∧
      c.data ++ totalRest s1 = thisChunk r ++ totalRest r ∧
      1 ≤ c.data.length ∧ c.data.length ≤ r.max ∧
      (c.data.length < r.min →
        s1.err = some Err.eof ∧ Terminal s1 ∧ totalRest s1 = []) ∧
      (c.cut &&& mask = 0 ∨ c.data.length = r.max ∨
        (s1.err = some Err.eof ∧ Terminal s1 ∧ totalRest s1 = [])) := by
  intro fuel
  induction fuel with
  | zero =>
    intro count r hInv hst _ hcf h1c h1m hmm hlen
    obtain ⟨c, s1, heq, hI, hm1, hm2, hcons, hlb, hub, hbd⟩ :=
      afterMin_spec r count hInv hst (by omega) hmm (by omega)
    exact ⟨c, s1, heq, hI, hm1, hm2, hcons, by omega, hub,
      fun hh => absurd hh (by omega), hbd⟩
  | succ f ih =>
    intro count r hInv hst hbp hcf h1c h1m hmm hlen
    have hlt : r.bpos < r.endp := by
      rcases hbp with h | h
      · omega
      · exact h
    rw [minLoop, bufGet_lt hlt]
    simp only []
    obtain ⟨hInv2, hbpos2, hendp2, hstart2, hmin2, hmax2, herr2, hsrc2, htc2, hcons2⟩ :=
      step_state r (r.buf r.bpos) hlt hst hInv
    set s2 : Rabin := { slideOp r (r.buf r.bpos) with
      bpos := (slideOp r (r.buf r.bpos)).bpos + 1 } with hs2
    have hlen2 : (thisChunk s2).length = count := by
      rw [htc2]
      simp [hlen]
      omega
    by_cases hg : s2.bpos = s2.endp ∧ count < s2.min
    · rw [if_pos hg]
      rcases hInv2.2.2.1 with herrn | herre
      · obtain ⟨hInv3, hmin3, hmax3, _, htc3, htr3, hstart3, hbpos3, hfalse3, htrue3⟩ :=
          updateBuf_inv hInv2 (Or.inl hg.1) herrn
        cases hu : (updateBuf s2).1 with
        | true =>
          simp only [hu, if_true]
          obtain ⟨c, s1, heq, hI, hm1, hm2, hcons, hlb, hub, hsh, hbd⟩ :=
            ih (count + 1) (updateBuf s2).2 hInv3 (by omega)
              (Or.inr (htrue3 hu)) (by omega) (by omega) (by omega) (by omega)
              (by rw [htc3, hlen2]; omega)
          refine ⟨c, s1, heq, hI, by rw [hm1, hmin3, hmin2],
            by rw [hm2, hmax3, hmax2], ?_, hlb,
            by rw [hmax3, hmax2] at hub; exact hub, ?_, ?_⟩
          · rw [hcons, htc3, htr3, hcons2]
          · intro hh
            exact hsh (by omega)
          · rcases hbd with h | h | h
            · exact Or.inl h
            · right; left
              rw [h, hmax3, hmax2]
            · exact Or.inr (Or.inr h)
        | false =>
          simp only [hu, Bool.false_eq_true, if_false]
          obtain ⟨heof, htr0, hterm⟩ := hfalse3 hu
          unfold chomp
          rw [if_pos (Or.inr heof)]
          refine ⟨⟨(updateBuf s2).2.digest, thisChunk (updateBuf s2).2⟩,
            { (updateBuf s2).2 with lastChunk := thisChunk (updateBuf s2).2 },
            chunkFn_spec _, hInv3, by rw [hmin3, hmin2], by rw [hmax3, hmax2], ?_, ?_, ?_, ?_, ?_⟩
          · show thisChunk (updateBuf s2).2 ++ totalRest (updateBuf s2).2 =
              thisChunk r ++ totalRest r
            rw [htc3, htr3, hcons2]
          · show 1 ≤ (thisChunk (updateBuf s2).2).length
            rw [htc3, hlen2]
            omega
          · show (thisChunk (updateBuf s2).2).length ≤ r.max
            rw [htc3, hlen2]
            have := hg.2
            omega
          · intro _
            exact ⟨heof, hterm, htr0⟩
          · right; right
            exact ⟨heof, hterm, htr0⟩
      · rw [updateBuf_latched (by rw [herre]; simp)]
        simp only [if_false]
        unfold chomp
        rw [if_pos (Or.inr herre)]
        have htr0 : totalRest s2 = [] := by
          unfold totalRest
          rw [bufRest_nil (Or.inl hg.1) hInv2.1, hInv2.2.2.2 herre]
          rfl
        refine ⟨⟨s2.digest, thisChunk s2⟩, { s2 with lastChunk := thisChunk s2 },
          chunkFn_spec s2, hInv2, hmin2, hmax2, ?_, ?_, ?_, ?_, ?_⟩
        · show thisChunk s2 ++ totalRest s2 = thisChunk r ++ totalRest r
          exact hcons2
        · show 1 ≤ (thisChunk s2).length
          omega
        · show (thisChunk s2).length ≤ r.max
          have := hg.2
          omega
        · intro _
          exact ⟨herre, Or.inr hg.1, htr0⟩
        · right; right
          exact ⟨herre, Or.inr hg.1, htr0⟩
    · rw [if_neg hg]
      obtain ⟨c, s1, heq, hI, hm1, hm2, hcons, hlb, hub, hsh, hbd⟩ :=
        ih (count + 1) s2 hInv2 (by omega)
          (by
            rcases Nat.eq_zero_or_pos f with hf | hf
            · exact Or.inl hf
            · right
              have hle := hInv2.1
              have hne : ¬ s2.bpos = s2.endp := fun hh => hg ⟨hh, by omega⟩
              omega)
          (by omega) (by omega) (by omega) (by omega) (by omega)
      refine ⟨c, s1, heq, hI, by rw [hm1, hmin2], by rw [hm2, hmax2],
        by rw [hcons, hcons2], hlb, by rw [hmax2] at hub; exact hub, ?_, ?_⟩
      · intro hh
        exact hsh (by omega)
      · rcases hbd with h | h | h
        · exact Or.inl h
        · right; left
          rw [h, hmax2]
        · exact Or.inr (Or.inr h)

theorem next_entry_true (r : Rabin) (buf : List Nat) (h0 : r.endp = 0 ∨ r.bpos = r.endp)
    (hu : (updateBuf r).1 = true) :
    next r buf = minLoop { (updateBuf r).2 with
      start := (updateBuf r).2.bpos, lastChunk := buf.take 0 } 1 (updateBuf r).2.min := by
  unfold next
  rw [if_pos h0]
  simp only [hu, if_true]

theorem next_entry_false (r : Rabin) (buf : List Nat) (h0 : r.endp = 0 ∨ r.bpos = r.endp)
    (hu : (updateBuf r).1 = false) :
    next r buf = ((none, (updateBuf r).2.err), (updateBuf r).2) := by
  unfold next
  rw [if_pos h0]
  simp only [hu, Bool.false_eq_true, if_false]

theorem next_noentry (r : Rabin) (buf : List Nat) (h0 : ¬(r.endp = 0 ∨ r.bpos = r.endp)) :
    next r buf = minLoop { r with start := r.bpos, lastChunk := buf.take 0 } 1 r.min := by
  unfold next
  rw [if_neg h0]

theorem next_spec (r : Rabin) (buf : List Nat) (hInv : EofInv r) (h1m : 1 ≤ r.min)
    (hmm : r.min ≤ r.max) :
    (∃ c s1, next r buf = ((some c, none), s1) ∧ EofInv s1 ∧
      s1.min = r.min ∧ s1.max = r.max ∧
      c.data ++ totalRest s1 = totalRest r ∧
      1 ≤ c.data.length ∧ c.data.length ≤ r.max ∧
      (c.data.length < r.min →
        s1.err = some Err.eof ∧ Terminal s1 ∧ totalRest s1 = []) ∧
      (c.cut &&& mask = 0 ∨ c.data.length = r.max ∨
        (s1.err = some Err.eof ∧ Terminal s1 ∧ totalRest s1 = []))) ∨
    (totalRest r = [] ∧ ∃ s1, next r buf = ((none, some Err.eof), s1) ∧
      EofInv s1 ∧ s1.min = r.min ∧ s1.max = r.max ∧ totalRest s1 = [] ∧
      s1.err = some Err.eof ∧ Terminal s1) := by
  by_cases h0 : r.endp = 0 ∨ r.bpos = r.endp
  · rcases hInv.2.2.1 with herrn | herre
    · obtain ⟨hInv3, hmin3, hmax3, _, htc3, htr3, hstart3, hbpos3, hfalse3, htrue3⟩ :=
        updateBuf_inv hInv (h0.elim Or.inr Or.inl) herrn
      cases hu : (updateBuf r).1 with
      | true =>
        have hnx := next_entry_true r buf h0 hu
        set R1 : Rabin := { (updateBuf r).2 with
          start := (updateBuf r).2.bpos, lastChunk := buf.take 0 } with hR1
        have htc1 : thisChunk R1 = [] := by
          show List.take 0 buf ++
            bufSlice (updateBuf r).2.buf (updateBuf r).2.bpos (updateBuf r).2.bpos = []
          rw [bufSlice_nil]
          rfl
        have htr1 : totalRest R1 = totalRest (updateBuf r).2 := rfl
        obtain ⟨c, s1, heq, hI, hm1, hm2, hcons, h1l, hub, hsh, hbd⟩ :=
          minLoop_spec (updateBuf r).2.min 1 R1 hInv3 (Nat.le_refl _)
            (Or.inr (htrue3 hu))
            (by show 1 + (updateBuf r).2.min = (updateBuf r).2.min + 1; omega) (by omega)
            (by show 1 ≤ (updateBuf r).2.min; omega)
            (by show (updateBuf r).2.min ≤ (updateBuf r).2.max; omega)
            (by rw [htc1]; rfl)
        left
        refine ⟨c, s1, by rw [hnx, heq], hI, ?_, ?_, ?_, h1l, ?_, ?_, ?_⟩
        · rw [hm1]
          show (updateBuf r).2.min = r.min
          omega
        · rw [hm2]
          show (updateBuf r).2.max = r.max
          omega
        · rw [hcons, htc1, List.nil_append, htr1]
          exact htr3
        · have hub2 : c.data.length ≤ (updateBuf r).2.max := hub
          omega
        · intro hh
          exact hsh (by show c.data.length < (updateBuf r).2.min; omega)
        · rcases hbd with h | h | h
          · exact Or.inl h
          · right; left
            rw [h]
            show (updateBuf r).2.max = r.max
            omega
          · exact Or.inr (Or.inr h)
      | false =>
        obtain ⟨heof, htr0, hterm⟩ := hfalse3 hu
        have hnx := next_entry_false r buf h0 hu
        rw [heof] at hnx
        right
        exact ⟨htr3 ▸ htr0, (updateBuf r).2, hnx, hInv3, hmin3, hmax3, htr0, heof, hterm⟩
    · have hul := updateBuf_latched (show r.err ≠ none by rw [herre]; simp)
      have hnx : next r buf = ((none, r.err), r) := by
        rw [next_entry_false r buf h0 (by rw [hul]), hul]
      rw [herre] at hnx
      have htr0 : totalRest r = [] := by
        unfold totalRest
        rw [bufRest_nil (h0.elim Or.inr Or.inl) hInv.1, hInv.2.2.2 herre]
        rfl
      right
      exact ⟨htr0, r, hnx, hInv, rfl, rfl, htr0, herre, h0⟩
  · have hlt : r.bpos < r.endp := by
      push_neg at h0
      have := hInv.1
      omega
    have hnx := next_noentry r buf h0
    set R1 : Rabin := { r with start := r.bpos, lastChunk := buf.take 0 } with hR1
    have htc1 : thisChunk R1 = [] := by
      show List.take 0 buf ++ bufSlice r.buf r.bpos r.bpos = []
      rw [bufSlice_nil]
      rfl
    have htr1 : totalRest R1 = totalRest r := rfl
    obtain ⟨c, s1, heq, hI, hm1, hm2, hcons, h1l, hub, hsh, hbd⟩ :=
      minLoop_spec r.min 1 R1 hInv (Nat.le_refl _) (Or.inr hlt)
        (by show 1 + r.min = r.min + 1; omega) (by omega)
        (by show 1 ≤ r.min; omega) (by show r.min ≤ r.max; omega) (by rw [htc1]; rfl)
    left
    refine ⟨c, s1, by rw [hnx, heq], hI, hm1, hm2, ?_, h1l, hub, hsh, hbd⟩
    rw [hcons, htc1, List.nil_append, htr1]

theorem reset_inv (mn mx : Nat) (S : List Nat) :
    EofInv (reset (mkRabin mn mx) ⟨S, Err.eof⟩) ∧
    totalRest (reset (mkRabin mn mx) ⟨S, Err.eof⟩) = S ∧
    (reset (mkRabin mn mx) ⟨S, Err.eof⟩).min = mn ∧
    (reset (mkRabin mn mx) ⟨S, Err.eof⟩).max = mx := by
  refine ⟨⟨Nat.le_refl 0, rfl, Or.inl rfl, fun h => ?_⟩, ?_, rfl, rfl⟩
  · simp [reset, slideOp, mkRabin] at h
  · show bufSlice (reset (mkRabin mn mx) ⟨S, Err.eof⟩).buf 0 0 ++ S = S
    rw [bufSlice_nil]
    rfl

theorem next_exhausted (s1 : Rabin) (hI : EofInv s1) (h1m : 1 ≤ s1.min)
    (hmm : s1.min ≤ s1.max) (h0 : totalRest s1 = []) :
    (next s1 []).1 = (none, some Err.eof) := by
  rcases next_spec s1 [] hI h1m hmm with
    ⟨c, s2, hnx, _, _, _, hcons, h1l, _⟩ | ⟨_, s2, hnx, _⟩
  · rw [h0] at hcons
    have hc0 : c.data = [] := (List.append_eq_nil.mp hcons).1
    rw [hc0] at h1l
    simp at h1l
  · rw [hnx]

theorem drive_spec : ∀ (fuel : Nat) (r : Rabin), EofInv r → 1 ≤ r.min → r.min ≤ r.max →
    (totalRest r).length < fuel →
    (drive r fuel).1.flatten = totalRest r ∧ (drive r fuel).2.1 = some Err.eof := by
  intro fuel
  induction fuel with
  | zero =>
    intro r _ _ _ hf
    omega
  | succ f ih =>
    intro r hInv h1m hmm hf
    rcases next_spec r [] hInv h1m hmm with
      ⟨c, s1, hnx, hI, hm1, hm2, hcons, h1l, hub, hsh, hbd⟩ |
      ⟨htr0, s1, hnx, hI, hm1, hm2, htr1, herr, hterm⟩
    · have hlen : (totalRest s1).length < f := by
        have hl := congrArg List.length hcons
        rw [List.length_append] at hl
        omega
      obtain ⟨hj, he⟩ := ih s1 hI (by omega) (by omega) hlen
      simp only [drive, hnx]
      constructor
      · rw [List.flatten_cons, hj]
        exact hcons
      · exact he
    · simp only [drive, hnx]
      refine ⟨?_, trivial⟩
      simp [htr0]

/-- C1: for every source byte sequence S delivered without read errors
and parameters 1 ≤ min ≤ max, concatenating the data of all chunks
emitted by Next calls from Reset until the end-of-stream return equals S
byte-for-byte, and the terminating call reports io.EOF. -/
theorem c1_reassembly (mn mx fuel : Nat) (S : List Nat) (h1 : 1 ≤ mn) (h2 : mn ≤ mx)
    (hf : S.length < fuel) :
    (drive (reset (mkRabin mn mx) ⟨S, Err.eof⟩) fuel).1.flatten = S ∧
    (drive (reset (mkRabin mn mx) ⟨S, Err.eof⟩) fuel).2.1 = some Err.eof := by
  obtain ⟨hI, htr, hmn, hmx⟩ := reset_inv mn mx S
  obtain ⟨hj, he⟩ := drive_spec fuel _ hI (by omega) (by omega) (by rw [htr]; omega)
  exact ⟨by rw [hj, htr], he⟩

theorem c1_reassembly_witness :
    (drive (reset (mkRabin 2 4) ⟨[3, 1, 4, 1, 5], Err.eof⟩) 6).1.flatten =
      [3, 1, 4, 1, 5] ∧
    (drive (reset (mkRabin 2 4) ⟨[3, 1, 4, 1, 5], Err.eof⟩) 6).2.1 = some Err.eof :=
  c1_reassembly 2 4 6 [3, 1, 4, 1, 5] (by decide) (by decide) (by decide)

/-- C2: every chunk emitted by a Next call on an error-free source with
1 ≤ min ≤ max has 1 ≤ |data| ≤ max, and a chunk shorter than min is the
last chunk of the stream: nothing of the stream remains and the
following call returns end of stream. -/
theorem c2_size_bounds (r : Rabin) (buf : List Nat) (c : Chunk) (s1 : Rabin)
    (hInv : EofInv r) (h1m : 1 ≤ r.min) (hmm : r.min ≤ r.max)
    (h : next r buf = ((some c, none), s1)) :
    1 ≤ c.data.length ∧ c.data.length ≤ r.max ∧
    (c.data.length < r.min →
      totalRest s1 = [] ∧ (next s1 []).1 = (none, some Err.eof)) := by
  rcases next_spec r buf hInv h1m hmm with
    ⟨d, t, hnx, hI, hm1, hm2, hcons, h1l, hub, hsh, hbd⟩ | ⟨_, t, hnx, _⟩
  · have he := h.symm.trans hnx
    injection he with he1 he2
    injection he1 with ha hb
    injection ha with hc
    subst hc
    subst he2
    refine ⟨h1l, hub, fun hh => ?_⟩
    obtain ⟨herr, hterm, htr0⟩ := hsh hh
    exact ⟨htr0, next_exhausted s1 hI (by omega) (by omega) htr0⟩
  · have he := h.symm.trans hnx
    simp at he

set_option maxRecDepth 1000000 in
theorem c2_size_bounds_witness :
    1 ≤ (Chunk.mk 4345365505 [3, 1, 4, 1]).data.length ∧
    (Chunk.mk 4345365505 [3, 1, 4, 1]).data.length ≤
      (reset (mkRabin 2 4) ⟨[3, 1, 4, 1, 5], Err.eof⟩).max ∧
    ((Chunk.mk 4345365505 [3, 1, 4, 1]).data.length <
        (reset (mkRabin 2 4) ⟨[3, 1, 4, 1, 5], Err.eof⟩).min →
      totalRest (next (reset (mkRabin 2 4) ⟨[3, 1, 4, 1, 5], Err.eof⟩) []).2 = [] ∧
      (next (next (reset (mkRabin 2 4) ⟨[3, 1, 4, 1, 5], Err.eof⟩) []).2 []).1 =
        (none, some Err.eof)) :=
  c2_size_bounds (reset (mkRabin 2 4) ⟨[3, 1, 4, 1, 5], Err.eof⟩) []
    ⟨4345365505, [3, 1, 4, 1]⟩
    (next (reset (mkRabin 2 4) ⟨[3, 1, 4, 1, 5], Err.eof⟩) []).2
    (reset_inv 2 4 [3, 1, 4, 1, 5]).1 (by decide) (by decide)
    (Prod.ext_iff.mpr ⟨by decide, rfl⟩)

/-- C3: every chunk emitted on an error-free source with 1 ≤ min ≤ max
either ends at a fingerprint boundary (the digest after sliding the
final byte, recorded as the cut, satisfies cut &&& mask = 0), or is
clamped at max bytes, or is the last chunk of the stream. -/
theorem c3_boundary_rule (r : Rabin) (buf : List Nat) (c : Chunk) (s1 : Rabin)
    (hInv : EofInv r) (h1m : 1 ≤ r.min) (hmm : r.min ≤ r.max)
    (h : next r buf = ((some c, none), s1)) :
    c.cut &&& mask = 0 ∨ c.data.length = r.max ∨
      (totalRest s1 = [] ∧ (next s1 []).1 = (none, some Err.eof)) := by
  rcases next_spec r buf hInv h1m hmm with
    ⟨d, t, hnx, hI, hm1, hm2, hcons, h1l, hub, hsh, hbd⟩ | ⟨_, t, hnx, _⟩
  · have he := h.symm.trans hnx
    injection he with he1 he2
    injection he1 with ha hb
    injection ha with hc
    subst hc
    subst he2
    rcases hbd with hB | hB | hB
    · exact Or.inl hB
    · exact Or.inr (Or.inl hB)
    · obtain ⟨herr, hterm, htr0⟩ := hB
      exact Or.inr (Or.inr ⟨htr0, next_exhausted s1 hI (by omega) (by omega) htr0⟩)
  · have he := h.symm.trans hnx
    simp at he

set_option maxRecDepth 1000000 in
theorem c3_boundary_rule_witness :
    (Chunk.mk 4345365505 [3, 1, 4, 1]).cut &&& mask = 0 ∨
    (Chunk.mk 4345365505 [3, 1, 4, 1]).data.length =
      (reset (mkRabin 2 4) ⟨[3, 1, 4, 1, 5], Err.eof⟩).max ∨
    (totalRest (next (reset (mkRabin 2 4) ⟨[3, 1, 4, 1, 5], Err.eof⟩) []).2 = [] ∧
     (next (next (reset (mkRabin 2 4) ⟨[3, 1, 4, 1, 5], Err.eof⟩) []).2 []).1 =
       (none, some Err.eof)) :=
  c3_boundary_rule (reset (mkRabin 2 4) ⟨[3, 1, 4, 1, 5], Err.eof⟩) []
    ⟨4345365505, [3, 1, 4, 1]⟩
    (next (reset (mkRabin 2 4) ⟨[3, 1, 4, 1, 5], Err.eof⟩) []).2
    (reset_inv 2 4 [3, 1, 4, 1, 5]).1 (by decide) (by decide)
    (Prod.ext_iff.mpr ⟨by decide, rfl⟩)
